import Mathlib

/-!
The vendor-syncer: commit classification, fork resolution, push grouping and
pick orchestration.

A shallow embedding of `experiment/vendor-syncer/server.go`.

Go strings are modelled as lists of characters (`Str`).  The strings handled
here come from decoded JSON and YAML, hence are valid UTF-8, and every
separator and marker the code searches for (`/`, `#`, `: `, `UPSTREAM: `) is
ASCII, so the byte offsets used by the Go code fall on character boundaries
and cut the same pieces as the character offsets used below.  The one place
where the code cuts a string at a fixed byte offset, `ID[0:7]` in `handlePush`,
is modelled on the UTF-8 bytes of the string (`Bytes`, `utf8`).

A Go pointer that may be nil (`*ForkMapping`, `*PickCommit`) is an `Option`.
A Go map is an association list read with `List.lookup`; the table of fork
mappings is only ever read, the map of grouped commits is written through
`mapSet`, which keeps every key at most once.
-/

namespace VendorSyncer

/-- A Go string, as the list of its characters. -/
abbrev Str := List Char

/-! ## The parts of the Go `strings` package used by the server -/

/-- Go `strings.Split(s, sep)` for a one-character separator: the pieces of `s`
between the occurrences of `sep`; a string without `sep` is its only piece, so
there is always at least one piece. -/
def split (sep : Char) : Str → List Str
  | [] => [[]]
  | c :: cs =>
    if c = sep then [] :: split sep cs
    else
      match split sep cs with
      | [] => [[c]]
      | seg :: rest => (c :: seg) :: rest

/-- Go `strings.Join(elems, sep)`. -/
def join (sep : Str) : List Str → Str
  | [] => []
  | [a] => a
  | a :: b :: rest => a ++ sep ++ join sep (b :: rest)

/-- Go `strings.HasPrefix(s, prefix)`. -/
def hasPrefix (s pre : Str) : Bool :=
  s.take pre.length == pre

/-- Go `strings.Index(s, substr)`: the offset of the first occurrence of
`substr` in `s`; `none` stands for the `-1` of the Go function. -/
def index (s sub : Str) : Option Nat :=
  if hasPrefix s sub then some 0
  else
    match s with
    | [] => none
    | _ :: cs => (index cs sub).map (· + 1)

/-- Go `unicode.IsSpace`: the Unicode White_Space property. -/
def isSpace (c : Char) : Bool :=
  let n := c.toNat
  (0x09 ≤ n && n ≤ 0x0D) || n == 0x20 || n == 0x85 || n == 0xA0 || n == 0x1680 ||
  (0x2000 ≤ n && n ≤ 0x200A) || n == 0x2028 || n == 0x2029 || n == 0x202F ||
  n == 0x205F || n == 0x3000

/-- Go `strings.TrimSpace(s)`: `s` without its leading and trailing white
space. -/
def trimSpace (s : Str) : Str :=
  ((s.dropWhile isSpace).reverse.dropWhile isSpace).reverse

/-- A Go string as the bytes it holds, for the places where the code cuts a
string at byte offsets that need not fall between two characters. -/
abbrev Bytes := List Nat

/-- The UTF-8 encoding of a character: one to four bytes. -/
def utf8EncodeChar (c : Char) : Bytes :=
  let v := c.toNat
  if v ≤ 0x7f then [v]
  else if v ≤ 0x7ff then [0xc0 + v / 0x40, 0x80 + v % 0x40]
  else if v ≤ 0xffff then
    [0xe0 + v / 0x1000, 0x80 + v / 0x40 % 0x40, 0x80 + v % 0x40]
  else
    [0xf0 + v / 0x40000, 0x80 + v / 0x1000 % 0x40, 0x80 + v / 0x40 % 0x40,
     0x80 + v % 0x40]

/-- The bytes of the Go string that holds the text `s`. -/
def utf8 (s : Str) : Bytes :=
  (s.map utf8EncodeChar).flatten

/-! ## Data model -/

/-- The Go struct `ForkMapping`. -/
structure ForkMapping where
  ForkRepository : Str
  ForkDefaultBranch : Str
  VendorPath : Str
  deriving DecidableEq, Repr

/-- The Go struct `VendorForkMappings`: the table from the short repository
name used in commit messages to its fork mapping. -/
structure VendorForkMappings where
  Repositories : List (Str × ForkMapping)
  deriving DecidableEq, Repr

/-- The Go struct `PickCommit`. -/
structure PickCommit where
  ID : Str
  SourceRepository : Str
  Mapping : Option ForkMapping
  Author : Str
  Message : Str
  deriving DecidableEq, Repr

/-- Modelled from the spec: the type `github.Commit` of the prow `github`
package, of which the push payload supplies "identifier, message". -/
structure Commit where
  ID : Str
  Message : Str
  deriving DecidableEq, Repr

/-- Modelled from the spec: the type `github.PushEvent` of the prow `github`
package, reduced to the "subset consumed": the "list of commits", the
"repository HTML URL" (`Repo.HTMLURL`) and the "sender login"
(`Sender.Login`). -/
structure PushEvent where
  Commits : List Commit
  RepoHTMLURL : Str
  SenderLogin : Str
  deriving DecidableEq, Repr

/-! ## Fork resolver and commit classifier -/

/-- The Go function `getForkMapping`. -/
def getForkMapping (shortRepository : Str) (forks : VendorForkMappings) :
    Option ForkMapping :=
  -- try to find an exact match first
  match forks.Repositories.lookup shortRepository with
  | some mapping => some mapping
  | none =>
    -- no match, guess the last two segments is the shortName
    let parts := split '/' shortRepository
    if parts.length < 2 then none
    else
      match forks.Repositories.lookup (join ['/'] (parts.drop (parts.length - 2))) with
      | some mapping => some mapping
      | none => none

/-- The Go function `processCommit`. -/
def processCommit (c : Commit) (forks : VendorForkMappings) : Option PickCommit :=
  if hasPrefix (trimSpace c.Message) "UPSTREAM: ".toList then
    let message := trimSpace c.Message
    match index (message.drop 10) ": ".toList with
    | some pos =>
      let mappings := getForkMapping ((message.drop 10).take pos) forks
      some { ID := c.ID, SourceRepository := [], Mapping := mappings, Author := [],
             Message := trimSpace c.Message }
    | none => none
  else none

/-! ## Push event processor -/

/-- The Go method `(*PickCommit).ForkRepository`. -/
def PickCommit.ForkRepository (c : PickCommit) : Str :=
  match c.Mapping with
  | none => []
  | some m => m.ForkRepository

/-- The Go method `(*PickCommit).WithBranch`.  The Go code reads
`c.Mapping.ForkDefaultBranch` without a nil check: `none` is the nil-pointer
panic of that read. -/
def PickCommit.WithBranch (c : PickCommit) : Option Str :=
  match c.Mapping with
  | none => none
  | some m => some (c.ForkRepository ++ ['#'] ++ m.ForkDefaultBranch)

/-- The Go type `map[string][]*PickCommit` of the local `commits` of
`handlePush`. -/
abbrev Groups := List (Str × List PickCommit)

/-- Reading a Go map, `commits[k]`: the nil slice when `k` is not a key. -/
def mapGet (commits : Groups) (k : Str) : List PickCommit :=
  (commits.lookup k).getD []

/-- Writing a Go map, `commits[k] = v`: replaces the value of an existing key,
adds the key otherwise. -/
def mapSet : Groups → Str → List PickCommit → Groups
  | [], k, v => [(k, v)]
  | (k', v') :: rest, k, v =>
    if k' = k then (k, v) :: rest else (k', v') :: mapSet rest k v

/-- The body of the first loop of `handlePush`, run on one commit of the push;
`none` is a run-time panic. -/
def handlePushStep (p : PushEvent) (forks : VendorForkMappings) (commits : Groups)
    (commit : Commit) : Option Groups :=
  match processCommit commit forks with
  | none =>
    -- commit is not UPSTREAM commit
    some commits
  | some c =>
    if c.ForkRepository.length = 0 then some commits
    else
      -- fill more details from the hook payload
      let c := { c with SourceRepository := p.RepoHTMLURL, Author := p.SenderLogin }
      match c.WithBranch with
      | none => none
      | some k => some (mapSet commits k (mapGet commits k ++ [c]))

/-- The first loop of `handlePush`, over the commits of the push in order,
starting from the map `commits`. -/
def handlePushLoop (p : PushEvent) (forks : VendorForkMappings) :
    List Commit → Groups → Option Groups
  | [], commits => some commits
  | commit :: rest, commits =>
    match handlePushStep p forks commits commit with
    | none => none
    | some commits' => handlePushLoop p forks rest commits'

/-- The grouping built by `handlePush`: its first loop run from the empty
map. -/
def handlePushGroups (p : PushEvent) (forks : VendorForkMappings) : Option Groups :=
  handlePushLoop p forks p.Commits []

/-- One `go s.handlePicksForRepo(shortID, forkRepo, groupedCommits)` started by
`handlePush`, as the three arguments of the call. -/
structure Invocation where
  ref : Bytes
  forkRepoBranch : Str
  picks : List PickCommit
  deriving DecidableEq, Repr

/-- The second loop of `handlePush`: one orchestrator invocation per entry of
the map.  `none` is a run-time panic of `groupedCommits[0].ID[0:7]`: an index
out of range on an empty group, or slice bounds out of range on an identifier
of fewer than 7 bytes.  The slice `ID[0:7]` is the first 7 bytes of the
identifier, which end inside a character when the identifier is not ASCII.  Go
ranges over a map in an unspecified order; the entries are visited here in the
order in which their keys were first written. -/
def handlePushStart : Groups → Option (List Invocation)
  | [] => some []
  | (forkRepo, groupedCommits) :: rest =>
    match groupedCommits with
    | [] => none
    | c :: _ =>
      if (utf8 c.ID).length < 7 then none
      else
        match handlePushStart rest with
        | none => none
        | some started =>
          some ({ ref := (utf8 c.ID).take 7, forkRepoBranch := forkRepo,
                  picks := groupedCommits } :: started)

/-- What a call of `handlePush` that returns has done: the `error` it returned
(`none` is Go's `nil`) and the orchestrator invocations it started. -/
structure PushResult where
  err : Option Str
  started : List Invocation
  deriving DecidableEq, Repr

/-- The Go method `(*Server).handlePush`; `none` is a run-time panic. -/
def handlePush (p : PushEvent) (forks : VendorForkMappings) : Option PushResult :=
  match handlePushGroups p forks with
  | none => none
  | some commits =>
    match handlePushStart commits with
    | none => none
    | some started => some { err := none, started := started }

/-! ## Pick orchestrator

`handlePicksForRepo` works through external operations: the git client, the
HTTP fetch of a patch, the `git am` process, the GitHub client.  Each one is a
step that succeeds or fails as the `World` decides, knowing the steps taken so
far; the run of the orchestrator is the list of the steps it took, in order.
The short identifier `ref` is taken here as a text; `workingBranchBytes` gives
the working-branch name for the bytes that `handlePush` passes. -/

/-- An external operation started by `handlePicksForRepo`, with the arguments
of the call. -/
inductive Op where
  /-- The call `s.gc.Clone(forkRepo)`. -/
  | clone (repo : Str)
  /-- The call `targetRepo.Config(key, value)`. -/
  | config (key value : Str)
  /-- The call `targetRepo.Checkout(branch)`. -/
  | checkout (branch : Str)
  /-- The call `targetRepo.CheckoutNewBranch(branch)`. -/
  | checkoutNewBranch (branch : Str)
  /-- The call `s.getPatchFile(sourceRepo, commitID)`, which fetches `url`. -/
  | getPatchFile (sourceRepo commitID url : Str)
  /-- The call `s.applyPatch(commit, dir, patchFile)` for the commit `commitID`,
  which runs `git` with the arguments `argv` in `dir`. -/
  | applyPatch (commitID dir : Str) (argv : List Str)
  /-- The call `targetRepo.Push(remote, branch)`. -/
  | push (remote branch : Str)
  /-- The call `s.ghc.CreatePullRequest(org, repo, title, body, head, base, canModify)`. -/
  | createPullRequest (org repo title body head base : Str) (canModify : Bool)
  /-- The deferred call `targetRepo.Clean()`. -/
  | clean
  deriving DecidableEq, Repr

/-- Whether the operation fetches or applies a patch. -/
def Op.isPatch : Op → Bool
  | .getPatchFile _ _ _ => true
  | .applyPatch _ _ _ => true
  | _ => false

/-- Whether the operation pushes a branch or creates a pull request. -/
def Op.isPublish : Op → Bool
  | .push _ _ => true
  | .createPullRequest _ _ _ _ _ _ _ => true
  | _ => false

/-- The patch step an operation is: `(false, id)` for the fetch of the patch
of commit `id`, `(true, id)` for its application, nothing for any other
operation. -/
def Op.patchStep : Op → Option (Bool × Str)
  | .getPatchFile _ commitID _ => some (false, commitID)
  | .applyPatch commitID _ _ => some (true, commitID)
  | _ => none

/-- The surroundings of the orchestrator: whether an operation succeeds after
the operations `hist` have been started, the directory of the clone
(`targetRepo.Dir`) and the file `getPatchFile` writes the patch of a commit
to. -/
structure World where
  succeeds : List Op → Op → Bool
  repoDir : Str
  patchFile : Str → Str → Str

/-- The part of the Go struct `Server` read by `handlePicksForRepo`. -/
structure Server where
  botName : Str

/-- Go `strings.Count(s, sep)` for a one-character separator. -/
def count (sep : Char) (s : Str) : Nat :=
  s.count sep

/-- Go `fmt.Sprintf("%d", n)` for a number that is not negative. -/
def decimal (n : Nat) : Str :=
  Nat.toDigits 10 n

/-- The strip option computed by the Go method `(*Server).applyPatch`,
`fmt.Sprintf("-p%d", strings.Count(c.Mapping.VendorPath, "/")+2)`. -/
def stripSlashesCount (m : ForkMapping) : Str :=
  "-p".toList ++ decimal (count '/' m.VendorPath + 2)

/-- The Go method `(*Server).applyPatch`, as the operation it starts: `git am`
run in `baseRepoDir`.  `none` is the nil-pointer panic of
`c.Mapping.VendorPath` on a pick without mapping. -/
def applyPatch (c : PickCommit) (baseRepoDir patchFile : Str) : Option Op :=
  match c.Mapping with
  | none => none
  | some m =>
    some (Op.applyPatch c.ID baseRepoDir
      ["am".toList, "-3".toList, "--ignore-whitespace".toList, stripSlashesCount m,
       patchFile])

/-- The Go method `(*Server).getPatchFile`, as the operation it starts: the
fetch of `<sourceRepo>/commit/<commitID>.patch`. -/
def getPatchFile (sourceRepo commitID : Str) : Op :=
  Op.getPatchFile sourceRepo commitID
    (sourceRepo ++ "/commit/".toList ++ commitID ++ ".patch".toList)

/-- How the loop over the picks of `handlePicksForRepo` ends: all patches
applied (with the messages, authors and source repository collected), an
operation failed, or a run-time panic; each with the operations started so
far. -/
inductive LoopResult where
  | done (hist : List Op) (messages authors : List Str) (sourceRepo : Str)
  | failed (hist : List Op)
  | panic (hist : List Op)
  deriving DecidableEq, Repr

/-- The loop `for _, commit := range picks` of `handlePicksForRepo`. -/
def pickLoop (w : World) : List PickCommit → List Op → List Str → List Str → Str →
    LoopResult
  | [], hist, messages, authors, sourceRepo => .done hist messages authors sourceRepo
  | commit :: rest, hist, messages, authors, _ =>
    let fetch := getPatchFile commit.SourceRepository commit.ID
    if w.succeeds hist fetch then
      let patchFile := w.patchFile commit.SourceRepository commit.ID
      -- apply the patch in the destination repository
      match applyPatch commit w.repoDir patchFile with
      | none => .panic (hist ++ [fetch])
      | some am =>
        if w.succeeds (hist ++ [fetch]) am then
          pickLoop w rest (hist ++ [fetch, am]) (messages ++ [commit.Message])
            (authors ++ [commit.Author]) commit.SourceRepository
        else .failed (hist ++ [fetch, am])
    else .failed (hist ++ [fetch])

/-- Operations run one after the other until one fails: the operations
started, and whether all succeeded. -/
def runOps (w : World) : List Op → List Op → List Op × Bool
  | hist, [] => (hist, true)
  | hist, op :: ops =>
    if w.succeeds hist op then runOps w (hist ++ [op]) ops else (hist ++ [op], false)

/-- The name of the working branch of `handlePicksForRepo`,
`"auto-pick-" + forkBranch + "-" + ref`. -/
def workingBranch (forkBranch ref : Str) : Str :=
  "auto-pick-".toList ++ forkBranch ++ "-".toList ++ ref

/-- The name of the working branch of `handlePicksForRepo` as the bytes of the
Go string, for a fork branch and a short identifier given by their bytes: the
short identifier passed by `handlePush` need not be valid UTF-8. -/
def workingBranchBytes (forkBranch ref : Bytes) : Bytes :=
  utf8 "auto-pick-".toList ++ forkBranch ++ utf8 "-".toList ++ ref

/-- The pull-request title of `handlePicksForRepo`. -/
def prTitle (ref : Str) (messages : List Str) : Str :=
  match messages with
  | [message] => "Automatic pick of ".toList ++ message
  | _ => "Automatic pick for ".toList ++ ref

/-- The pull-request body of `handlePicksForRepo`. -/
def prBody (sourceRepo : Str) (authors : List Str) : Str :=
  authors.foldl (fun body author => body ++ "/cc @".toList ++ author)
    ("This is automatic pick from ".toList ++ sourceRepo ++ ".\n".toList)

/-- A run of `handlePicksForRepo`: the operations it started, in order, and
whether it ended in a run-time panic. -/
structure Run where
  trace : List Op
  panicked : Bool
  deriving DecidableEq, Repr

/-- The Go method `(*Server).handlePicksForRepo`.  The deferred
`targetRepo.Clean()` runs at every exit after a successful clone.  The panics
are the index out of range of `parts[1]` on a key without `#` and of
`repoParts[1]` on a fork repository without `/`, and the one of `applyPatch`.
An error of `CreatePullRequest` is only logged. -/
def handlePicksForRepo (s : Server) (w : World) (ref forkRepoBranch : Str)
    (picks : List PickCommit) : Run :=
  match split '#' forkRepoBranch with
  | forkRepo :: forkBranch :: _ =>
    if w.succeeds [] (Op.clone forkRepo) then
      let workingBranch := workingBranch forkBranch ref
      match runOps w [Op.clone forkRepo]
          [Op.config "user.name".toList "vendorpicker".toList,
           Op.config "user.email".toList "vendorpicker@localhost".toList,
           Op.checkout forkBranch,
           Op.checkoutNewBranch workingBranch] with
      | (hist, false) => { trace := hist ++ [Op.clean], panicked := false }
      | (hist, true) =>
        match pickLoop w picks hist [] [] [] with
        | .failed hist => { trace := hist ++ [Op.clean], panicked := false }
        | .panic hist => { trace := hist ++ [Op.clean], panicked := true }
        | .done hist messages authors sourceRepo =>
          let title := prTitle ref messages
          let body := prBody sourceRepo authors
          let head := s.botName ++ ":".toList ++ workingBranch
          match split '/' forkRepo with
          | org :: repo :: _ =>
            if w.succeeds hist (Op.push repo workingBranch) then
              { trace := hist ++ [Op.push repo workingBranch,
                  Op.createPullRequest org repo title body head forkBranch true,
                  Op.clean],
                panicked := false }
            else { trace := hist ++ [Op.push repo workingBranch, Op.clean],
                   panicked := false }
          | _ => { trace := hist ++ [Op.clean], panicked := true }
    else { trace := [Op.clone forkRepo], panicked := false }
  | _ => { trace := [], panicked := true }

/-! ## Specification of the grouping

The following definitions follow the words of the specification, not the code;
the grouping computed by `handlePush` is compared with them. -/

/-- Specification: the pick a commit of the push contributes, if any.  A commit
contributes when it is recognised and its resolved mapping is present with a
non-empty fork repository; the pick carries the push's repository URL and the
sender login. -/
def specPick (p : PushEvent) (forks : VendorForkMappings) (commit : Commit) :
    Option PickCommit :=
  match processCommit commit forks with
  | none => none
  | some c =>
    match c.Mapping with
    | none => none
    | some m =>
      if m.ForkRepository = [] then none
      else some { c with SourceRepository := p.RepoHTMLURL, Author := p.SenderLogin }

/-- Specification: the picks of a push, in the order of its commits. -/
def specPicks (p : PushEvent) (forks : VendorForkMappings) : List PickCommit :=
  p.Commits.filterMap (specPick p forks)

/-- Specification: the destination key of a mapping, fork repository + `#` +
fork default branch. -/
def specKey (m : ForkMapping) : Str :=
  m.ForkRepository ++ ['#'] ++ m.ForkDefaultBranch

/-- Specification: whether a pick has the destination key `k`. -/
def specHasKey (k : Str) (c : PickCommit) : Bool :=
  match c.Mapping with
  | none => false
  | some m => specKey m == k

/-- Specification: the destination group of key `k`, the picks of the push
with that key in push order. -/
def specGroup (p : PushEvent) (forks : VendorForkMappings) (k : Str) : List PickCommit :=
  (specPicks p forks).filter (specHasKey k)

/-- Specification: a path without its first `n` components, as the option
`-p<n>` of `git am` reads the paths of a patch. -/
def stripComponents (n : Nat) (path : Str) : Str :=
  join ['/'] ((split '/' path).drop n)

/-- Specification: the patch steps of a list of picks fetched and applied one
by one, in order: for each pick the fetch of its patch, then its
application. -/
def specPatchSteps (picks : List PickCommit) : List (Bool × Str) :=
  (picks.map (fun c => [(false, c.ID), (true, c.ID)])).flatten

/-- Auxiliary to the proofs: every operation of a list, started in turn after
the operations `hist`, succeeds. -/
def AllOk (w : World) : List Op → List Op → Prop
  | _, [] => True
  | hist, op :: ops => w.succeeds hist op = true ∧ AllOk w (hist ++ [op]) ops

/-- Specification: the operations of `handlePicksForRepo` that prepare the
working branch: clone of the fork repository, commit identity, checkout of the
fork branch, creation of the working branch. -/
def setupOps (forkRepo forkBranch ref : Str) : List Op :=
  [Op.clone forkRepo,
   Op.config "user.name".toList "vendorpicker".toList,
   Op.config "user.email".toList "vendorpicker@localhost".toList,
   Op.checkout forkBranch,
   Op.checkoutNewBranch (workingBranch forkBranch ref)]

/-- Auxiliary to the proofs: the map of groups after the pick `c` has been
appended to the group of its destination key. -/
def addPick (g : Groups) (c : PickCommit) : Groups :=
  match c.Mapping with
  | none => g
  | some m => mapSet g (specKey m) (mapGet g (specKey m) ++ [c])

end VendorSyncer

/-!
The mungegithub feature `gitrepos`: owners of a path.

A shallow embedding of the owner lookup of `mungegithub/features/repo-updates.go`.
A `sets.String` is modelled as the list of its members, without repetition.
The functions of `path/filepath` are those of a system whose separator is `/`.
-/

namespace Features

open VendorSyncer

/-- The Go type `sets.String`. -/
abbrev StringSet := List Str

/-- The Go method `sets.String.Union`. -/
def union (s1 s2 : StringSet) : StringSet :=
  s1 ++ s2.filter (fun x => !s1.contains x)

/-- Go `strings.TrimSuffix(s, suffix)`. -/
def trimSuffix (s suffix : Str) : Str :=
  if suffix.isSuffixOf s then s.take (s.length - suffix.length) else s

/-- One path element read by Go `filepath.Clean`, with the elements kept so far
in `stack`, the last one first: an empty element and `.` are dropped, `..`
removes the element before it, is dropped at the root and is kept at the start
of a path that is not rooted. -/
def cleanStep (rooted : Bool) (stack : List Str) (seg : Str) : List Str :=
  if seg = [] ∨ seg = ['.'] then stack
  else if seg = ['.', '.'] then
    match stack with
    | top :: rest => if top = ['.', '.'] then seg :: stack else rest
    | [] => if rooted then [] else [seg]
  else seg :: stack

/-- Go `filepath.Clean(path)`: the shortest path name equivalent to `path`; `.`
for an empty result. -/
def clean (path : Str) : Str :=
  let rooted := path.head? == some '/'
  let elems := ((split '/' path).foldl (cleanStep rooted) []).reverse
  let out := (if rooted then ['/'] else []) ++ join ['/'] elems
  if out = [] then ['.'] else out

/-- Go `filepath.Dir(path)`: `Clean` of the path up to and including its last
separator. -/
def dir (path : Str) : Str :=
  clean (path.reverse.dropWhile (fun c => c != '/')).reverse

/-- The Go constant `baseDirConvention`. -/
def baseDirConvention : Str := []

/-- The Go function `canonicalize`. -/
def canonicalize (path : Str) : Str :=
  if path = ['.'] then baseDirConvention else trimSuffix path ['/']

/-- The loop `for { ... }` of the Go function `peopleForPath`, run for at most
`fuel` rounds from the directory `d` with the set `out`; `none` when the fuel is
used up before the loop ends. -/
def peopleForPathLoop (people : List (Str × StringSet)) (leafOnly : Bool) :
    Nat → Str → StringSet → Option StringSet
  | 0, _, _ => none
  | fuel + 1, d, out =>
    match people.lookup d with
    | some s =>
      let out := union out s
      if leafOnly && out.length > 0 then some out
      else if d = baseDirConvention then some out
      else peopleForPathLoop people leafOnly fuel (canonicalize (dir d)) out
    | none =>
      if d = baseDirConvention then some out
      else peopleForPathLoop people leafOnly fuel (canonicalize (dir d)) out

/-- The Go function `peopleForPath`, its loop run for at most `fuel` rounds.
When `enableMdYaml` is false the code assigns `filepath.Dir(d)` to `d` and then
`canonicalize(path)`, which replaces it. -/
def peopleForPath (fuel : Nat) (path : Str) (people : List (Str × StringSet))
    (leafOnly enableMdYaml : Bool) : Option StringSet :=
  let d := path
  let d :=
    if !enableMdYaml then
      let _d := dir d
      canonicalize path
    else d
  peopleForPathLoop people leafOnly fuel d []

/-- The fields of the Go struct `RepoInfo` read by the owner lookup. -/
structure RepoInfo where
  enableMdYaml : Bool
  useReviewers : Bool
  approvers : List (Str × StringSet)
  reviewers : List (Str × StringSet)

/-- The Go method `(*RepoInfo).LeafApprovers`. -/
def RepoInfo.LeafApprovers (o : RepoInfo) (fuel : Nat) (path : Str) : Option StringSet :=
  peopleForPath fuel path o.approvers true o.enableMdYaml

/-- Specification: the keys looked up for the path made of the first `k` of
the segments `segs`: that path, then its ancestor directories, up to the
root `""`. -/
def specAncestors (segs : List Str) : Nat → List Str
  | 0 => [[]]
  | k + 1 => join ['/'] (segs.take (k + 1)) :: specAncestors segs k

/-- Specification: the set stored under the first of the keys whose set is not
empty; the empty set when there is none. -/
def specLeaf (people : List (Str × StringSet)) : List Str → StringSet
  | [] => []
  | k :: ks =>
    match people.lookup k with
    | some s => if s = [] then specLeaf people ks else s
    | none => specLeaf people ks

/-- Specification: a path segment that names a file or a directory: not empty,
without `/`, neither `.` nor `..`. -/
def NormalSegment (seg : Str) : Prop :=
  seg ≠ [] ∧ '/' ∉ seg ∧ seg ≠ ['.'] ∧ seg ≠ ['.', '.']

instance (seg : Str) : Decidable (NormalSegment seg) := by
  unfold NormalSegment
  infer_instance

end Features

namespace VendorSyncer

/-! ## Facts about the string functions -/

theorem hasPrefix_iff (s pre : Str) : hasPrefix s pre = true ↔ pre <+: s := by
  unfold hasPrefix
  rw [List.prefix_iff_eq_take]
  constructor
  · intro h
    exact (eq_of_beq h).symm
  · intro h
    exact beq_iff_eq.mpr h.symm

theorem split_ne_nil (sep : Char) (s : Str) : split sep s ≠ [] := by
  induction s with
  | nil => simp [split]
  | cons c cs ih =>
    unfold split
    split_ifs
    · simp
    · cases h : split sep cs with
      | nil => exact absurd h ih
      | cons seg rest => simp

theorem split_length_pos (sep : Char) (s : Str) : 1 ≤ (split sep s).length := by
  cases h : split sep s with
  | nil => exact absurd h (split_ne_nil sep s)
  | cons a l => simp

theorem index_isSome_iff (s sub : Str) : (index s sub).isSome = true ↔ sub <:+: s := by
  induction s with
  | nil =>
    unfold index
    cases hp : hasPrefix [] sub with
    | true =>
      simp only [if_true, Option.isSome_some, true_iff]
      exact ((hasPrefix_iff _ _).mp hp).isInfix
    | false =>
      constructor
      · intro h; simp at h
      · intro h
        have hs : sub = [] := List.eq_nil_of_infix_nil h
        subst hs
        simp [hasPrefix] at hp
  | cons c cs ih =>
    unfold index
    cases hp : hasPrefix (c :: cs) sub with
    | true =>
      simp only [if_true, Option.isSome_some, true_iff]
      exact ((hasPrefix_iff _ _).mp hp).isInfix
    | false =>
      have hnp : ¬ sub <+: c :: cs := by
        intro h
        rw [(hasPrefix_iff _ _).mpr h] at hp
        exact Bool.noConfusion hp
      simp only [Bool.false_eq_true, if_false, Option.isSome_map']
      rw [ih]
      constructor
      · intro h
        exact h.trans (List.suffix_cons c cs).isInfix
      · intro h
        rcases List.infix_cons_iff.mp h with h1 | h1
        · exact absurd h1 hnp
        · exact h1

theorem drop_of_pair_suffix {α : Type} (a b : α) (l : List α) (h : [a, b] <:+ l) :
    l.drop (l.length - 2) = [a, b] := by
  obtain ⟨t, rfl⟩ := h
  simp

theorem pair_suffix_of_length {α : Type} (l : List α) (h : 2 ≤ l.length) :
    ∃ a b, l.drop (l.length - 2) = [a, b] ∧ [a, b] <:+ l := by
  have hlen : (l.drop (l.length - 2)).length = 2 := by
    rw [List.length_drop]; omega
  obtain ⟨a, b, hab⟩ := List.length_eq_two.mp hlen
  exact ⟨a, b, hab, hab ▸ List.drop_suffix _ _⟩

theorem join_pair (sep a b : Str) : join sep [a, b] = a ++ sep ++ b := by
  simp [join]

/-! ## The fork resolver -/

/-- C1: when the short name is not a key of the table, has at least two
`/`-separated segments, the last two being `a` and `b`, and `a/b` is a key of
the table, `getForkMapping` returns the entry stored under `a/b`. -/
theorem getForkMapping_suffix_fallback (forks : VendorForkMappings) (name a b : Str)
    (m : ForkMapping)
    (hkey : forks.Repositories.lookup name = none)
    (hlast : [a, b] <:+ split '/' name)
    (hsuf : forks.Repositories.lookup (a ++ ['/'] ++ b) = some m) :
    getForkMapping name forks = some m := by
  have hlen : ¬ (split '/' name).length < 2 := by
    have := hlast.length_le
    simp at this
    omega
  unfold getForkMapping
  simp only [hkey, hlen, if_false, drop_of_pair_suffix a b _ hlast, join_pair, hsuf]

/-- Witness of C1: `github.com/containers/image` resolves to the entry stored
under `containers/image`. -/
theorem getForkMapping_suffix_fallback_witness :
    getForkMapping "github.com/containers/image".toList
      ⟨[("containers/image".toList,
         ⟨"github.com/forkorg/containers-image".toList, "release-1.0".toList,
          "vendor/github.com/containers/image".toList⟩)]⟩ =
    some ⟨"github.com/forkorg/containers-image".toList, "release-1.0".toList,
          "vendor/github.com/containers/image".toList⟩ :=
  getForkMapping_suffix_fallback _ "github.com/containers/image".toList
    "containers".toList "image".toList _ (by decide) (by decide) (by decide)

/-- C2: when the short name is a key of the table, `getForkMapping` returns
the entry stored under that key, whatever the table holds under the join of
the last two segments of the name. -/
theorem getForkMapping_exact_match (forks : VendorForkMappings) (name : Str)
    (m : ForkMapping) (hkey : forks.Repositories.lookup name = some m) :
    getForkMapping name forks = some m := by
  unfold getForkMapping
  simp only [hkey]

/-- Witness of C2: `github.com/containers/image` is a key, and so is
`containers/image` with a different entry; the entry of the exact key is
returned. -/
theorem getForkMapping_exact_match_witness :
    getForkMapping "github.com/containers/image".toList
      ⟨[("containers/image".toList, ⟨"suffix".toList, [], []⟩),
        ("github.com/containers/image".toList, ⟨"exact".toList, [], []⟩)]⟩ =
      some ⟨"exact".toList, [], []⟩ ∧
    List.lookup (join ['/'] ((split '/' "github.com/containers/image".toList).drop 1))
      [("containers/image".toList, (⟨"suffix".toList, [], []⟩ : ForkMapping)),
       ("github.com/containers/image".toList, ⟨"exact".toList, [], []⟩)] =
      some ⟨"suffix".toList, [], []⟩ :=
  ⟨getForkMapping_exact_match _ _ _ (by decide), by decide⟩

/-- C3: `getForkMapping` returns nil exactly when the name is not a key of the
table and either the name has fewer than two `/`-separated segments or the
join of its last two segments is not a key; and a mapping it returns is the
table entry under the name or under the join of its last two segments. -/
theorem getForkMapping_none_iff (forks : VendorForkMappings) (name : Str) :
    (getForkMapping name forks = none ↔
      forks.Repositories.lookup name = none ∧
      ((split '/' name).length < 2 ∨
        ∃ a b, [a, b] <:+ split '/' name ∧
          forks.Repositories.lookup (a ++ ['/'] ++ b) = none)) ∧
    (∀ m, getForkMapping name forks = some m →
      forks.Repositories.lookup name = some m ∨
      ∃ a b, [a, b] <:+ split '/' name ∧
        forks.Repositories.lookup (a ++ ['/'] ++ b) = some m) := by
  unfold getForkMapping
  cases hkey : forks.Repositories.lookup name with
  | some m0 =>
    dsimp only
    exact ⟨⟨fun h => Option.noConfusion h, fun h => Option.noConfusion h.1⟩,
      fun m hm => Or.inl hm⟩
  | none =>
    dsimp only
    by_cases hlen : (split '/' name).length < 2
    · rw [if_pos hlen]
      exact ⟨⟨fun _ => ⟨rfl, Or.inl hlen⟩, fun _ => rfl⟩, fun m hm => Option.noConfusion hm⟩
    · obtain ⟨a, b, hdrop, hsuf⟩ := pair_suffix_of_length _ (Nat.le_of_not_lt hlen)
      have huniq : ∀ a' b', [a', b'] <:+ split '/' name → a' = a ∧ b' = b := by
        intro a' b' h'
        have := drop_of_pair_suffix a' b' _ h'
        rw [hdrop] at this
        simpa [eq_comm] using this
      rw [if_neg hlen, hdrop, join_pair]
      cases hsec : forks.Repositories.lookup (a ++ ['/'] ++ b) with
      | none =>
        dsimp only
        exact ⟨⟨fun _ => ⟨rfl, Or.inr ⟨a, b, hsuf, hsec⟩⟩, fun _ => rfl⟩,
          fun m hm => Option.noConfusion hm⟩
      | some m1 =>
        dsimp only
        refine ⟨⟨fun h => Option.noConfusion h, ?_⟩, ?_⟩
        · rintro ⟨-, h | ⟨a', b', h', hnone⟩⟩
          · exact absurd h hlen
          · obtain ⟨rfl, rfl⟩ := huniq a' b' h'
            rw [hsec] at hnone
            exact Option.noConfusion hnone
        · intro m hm
          exact Or.inr ⟨a, b, hsuf, hsec.trans hm⟩

/-- Witness of C3: `unknown/repo` against a table holding only
`containers/image` is absent. -/
theorem getForkMapping_none_iff_witness :
    getForkMapping "unknown/repo".toList
      ⟨[("containers/image".toList, ⟨[], [], []⟩)]⟩ = none :=
  (getForkMapping_none_iff _ _).1.mpr
    ⟨by decide, Or.inr ⟨"unknown".toList, "repo".toList, by decide, by decide⟩⟩

/-- Counterexample to C4: a table that has an entry under the empty key; the
exact match returns that entry for the empty name. -/
theorem getForkMapping_empty_key_counterexample :
    getForkMapping "".toList
      ⟨[("".toList, ⟨"github.com/forkorg/fork".toList, "master".toList,
          "vendor/fork".toList⟩)]⟩ =
      some ⟨"github.com/forkorg/fork".toList, "master".toList, "vendor/fork".toList⟩ ∧
    ¬ (∀ forks : VendorForkMappings, getForkMapping "".toList forks = none) := by
  refine ⟨by decide, ?_⟩
  intro h
  have h1 := h ⟨[("".toList, ⟨"github.com/forkorg/fork".toList, "master".toList,
          "vendor/fork".toList⟩)]⟩
  revert h1
  decide

/-- C4, amended: for every table without an entry under the empty key,
`getForkMapping` returns nil for the empty name, which has a single segment,
fewer than two. -/
theorem getForkMapping_empty_name (forks : VendorForkMappings)
    (hkey : forks.Repositories.lookup ([] : Str) = none) :
    (split '/' []).length = 1 ∧ getForkMapping [] forks = none := by
  refine ⟨by simp [split], ?_⟩
  unfold getForkMapping
  simp [hkey, split]

/-- Witness of C4, amended: the empty name against a table holding only
`k8s.io/kubernetes`. -/
theorem getForkMapping_empty_name_witness :
    getForkMapping [] ⟨[("k8s.io/kubernetes".toList, ⟨[], [], []⟩)]⟩ = none :=
  (getForkMapping_empty_name _ (by decide)).2

/-! ## The commit classifier -/

theorem index_colon_space (name rest : Str) (h : ¬ [':', ' '] <:+: name) :
    index (name ++ [':', ' '] ++ rest) [':', ' '] = some name.length := by
  induction name with
  | nil =>
    unfold index
    simp [hasPrefix]
  | cons x xs ih =>
    have hxs : ¬ [':', ' '] <:+: xs := fun h' =>
      h (h'.trans (List.suffix_cons x xs).isInfix)
    have hp : hasPrefix (x :: xs ++ [':', ' '] ++ rest) [':', ' '] = false := by
      cases hq : hasPrefix (x :: xs ++ [':', ' '] ++ rest) [':', ' '] with
      | false => rfl
      | true =>
        exfalso
        cases xs with
        | nil =>
          simp [hasPrefix] at hq
        | cons y ys =>
          simp only [hasPrefix, List.cons_append, List.length_cons, List.length_nil,
            List.take_succ_cons, List.take_zero, beq_iff_eq] at hq
          injection hq with h1 h2
          injection h2 with h3 _
          subst h1 h3
          exact h ⟨[], ys, by simp⟩
    unfold index
    rw [hp]
    simp only [Bool.false_eq_true, if_false, List.cons_append]
    have := ih hxs
    simp only [List.append_assoc, List.cons_append, List.nil_append] at this ⊢
    rw [this]
    simp

theorem drop_marker (s rest : Str) (h : s = "UPSTREAM: ".toList ++ rest) :
    s.drop 10 = rest := by
  subst h
  rfl

theorem hasPrefix_marker (s : Str) :
    hasPrefix s "UPSTREAM: ".toList = true ↔ ∃ rest, s = "UPSTREAM: ".toList ++ rest := by
  rw [hasPrefix_iff]
  constructor
  · rintro ⟨rest, h⟩
    exact ⟨rest, h.symm⟩
  · rintro ⟨rest, h⟩
    exact ⟨rest, h.symm⟩

/-- C5: `processCommit` returns a pick exactly when the trimmed message starts
with the 10-character marker `UPSTREAM: ` and the text after the marker
contains `: `; in every other case it returns nil. -/
theorem processCommit_recognised_iff (c : Commit) (forks : VendorForkMappings) :
    "UPSTREAM: ".toList.length = 10 ∧
    ((processCommit c forks).isSome = true ↔
      ∃ rest, trimSpace c.Message = "UPSTREAM: ".toList ++ rest ∧ ": ".toList <:+: rest) ∧
    (processCommit c forks = none ↔
      ¬ ∃ rest, trimSpace c.Message = "UPSTREAM: ".toList ++ rest ∧ ": ".toList <:+: rest) := by
  have key : (processCommit c forks).isSome = true ↔
      ∃ rest, trimSpace c.Message = "UPSTREAM: ".toList ++ rest ∧ ": ".toList <:+: rest := by
    unfold processCommit
    cases hp : hasPrefix (trimSpace c.Message) "UPSTREAM: ".toList with
    | false =>
      simp only [Bool.false_eq_true, if_false, Option.isSome_none, false_iff]
      rintro ⟨rest, hrest, -⟩
      rw [(hasPrefix_marker _).mpr ⟨rest, hrest⟩] at hp
      exact Bool.noConfusion hp
    | true =>
      obtain ⟨rest, hrest⟩ := (hasPrefix_marker _).mp hp
      have hdrop := drop_marker _ _ hrest
      simp only [if_true, hdrop]
      have hidx := index_isSome_iff rest ": ".toList
      cases hi : index rest ": ".toList with
      | none =>
        rw [hi] at hidx
        simp only [Option.isSome_none, Bool.false_eq_true, false_iff]
        rintro ⟨rest', hrest', hin⟩
        have : rest' = rest := List.append_cancel_left (hrest'.symm.trans hrest)
        subst this
        exact absurd (hidx.mpr hin) (by simp)
      | some pos =>
        rw [hi] at hidx
        simp only [Option.isSome_some, true_iff]
        exact ⟨rest, hrest, hidx.mp rfl⟩
  refine ⟨rfl, key, ?_⟩
  rw [← key]
  cases processCommit c forks <;> simp

/-- Counterexample to C6: a message with a leading blank does not start with
`UPSTREAM: `, yet `processCommit` trims it first and recognises the commit. -/
theorem processCommit_untrimmed_counterexample :
    ¬ ("UPSTREAM: ".toList <+: " UPSTREAM: containers/image: 2384: Fix".toList) ∧
    processCommit ⟨"c4eefeff07841366bbca7c86e71929a3c5bf2d04".toList,
        " UPSTREAM: containers/image: 2384: Fix".toList⟩
      ⟨[("containers/image".toList, ⟨[], [], []⟩)]⟩ =
      some { ID := "c4eefeff07841366bbca7c86e71929a3c5bf2d04".toList,
             SourceRepository := [],
             Mapping := some ⟨[], [], []⟩,
             Author := [],
             Message := "UPSTREAM: containers/image: 2384: Fix".toList } := by
  constructor
  · decide
  · decide

/-- C6, amended: a commit whose whitespace-trimmed message does not start with
the literal `UPSTREAM: ` is not recognised: `processCommit` returns nil. -/
theorem processCommit_no_marker (c : Commit) (forks : VendorForkMappings)
    (h : ¬ ("UPSTREAM: ".toList <+: trimSpace c.Message)) :
    processCommit c forks = none := by
  unfold processCommit
  rw [if_neg]
  rw [hasPrefix_iff]
  exact h

/-- Witness of C6, amended: a message without the marker. -/
theorem processCommit_no_marker_witness :
    processCommit ⟨"c4eefeff07841366bbca7c86e71929a3c5bf2d04".toList,
        "Bump containers/image: UPSTREAM: 2384".toList⟩
      ⟨[("containers/image".toList, ⟨[], [], []⟩)]⟩ = none :=
  processCommit_no_marker _ _ (by decide)

/-- C7: when the trimmed message is `UPSTREAM: ` + name + `: ` + rest and the
name does not contain `: `, `processCommit` returns the pick with the commit's
ID, the trimmed message, the mapping `getForkMapping name` and empty
SourceRepository and Author; the mapping is the table entry itself when the
name is a key of the table. -/
theorem processCommit_short_name (c : Commit) (forks : VendorForkMappings)
    (name rest : Str)
    (hname : ¬ (": ".toList <:+: name))
    (hmsg : trimSpace c.Message = "UPSTREAM: ".toList ++ name ++ ": ".toList ++ rest) :
    processCommit c forks =
      some { ID := c.ID, SourceRepository := [], Mapping := getForkMapping name forks,
             Author := [], Message := trimSpace c.Message } ∧
    (∀ m, forks.Repositories.lookup name = some m →
      processCommit c forks =
        some { ID := c.ID, SourceRepository := [], Mapping := some m,
               Author := [], Message := trimSpace c.Message }) := by
  have hmsg' : trimSpace c.Message = "UPSTREAM: ".toList ++ (name ++ ": ".toList ++ rest) := by
    rw [hmsg]; simp only [List.append_assoc]
  have hp : hasPrefix (trimSpace c.Message) "UPSTREAM: ".toList = true :=
    (hasPrefix_marker _).mpr ⟨_, hmsg'⟩
  have hdrop := drop_marker _ _ hmsg'
  have hidx : index (name ++ ": ".toList ++ rest) ": ".toList = some name.length :=
    index_colon_space name rest hname
  have htake : (name ++ ": ".toList ++ rest).take name.length = name := by
    rw [List.append_assoc, List.take_left]
  have main : processCommit c forks =
      some { ID := c.ID, SourceRepository := [], Mapping := getForkMapping name forks,
             Author := [], Message := trimSpace c.Message } := by
    unfold processCommit
    simp only [hp, if_true, hdrop, hidx, htake]
  refine ⟨main, ?_⟩
  intro m hm
  have hget : getForkMapping name forks = some m := by
    unfold getForkMapping
    simp only [hm]
  rw [main, hget]

/-- Witness of C7: the commit of the repository's own test. -/
theorem processCommit_short_name_witness :
    processCommit ⟨"c4eefeff07841366bbca7c86e71929a3c5bf2d04".toList,
        "UPSTREAM: containers/image: 2384: Some commit message".toList⟩
      ⟨[("containers/image".toList,
         ⟨"github.com/forkorg/containers-image".toList, "release-1.0".toList,
          "vendor/github.com/containers/image".toList⟩)]⟩ =
      some { ID := "c4eefeff07841366bbca7c86e71929a3c5bf2d04".toList,
             SourceRepository := [],
             Mapping := some ⟨"github.com/forkorg/containers-image".toList,
               "release-1.0".toList, "vendor/github.com/containers/image".toList⟩,
             Author := [],
             Message := "UPSTREAM: containers/image: 2384: Some commit message".toList } :=
  (processCommit_short_name _ _ "containers/image".toList
    "2384: Some commit message".toList (by decide) (by decide)).2 _ (by decide)

/-! ## The map of grouped commits -/

theorem lookup_cons_ne {β : Type} (k k0 : Str) (v0 : β) (rest : List (Str × β))
    (h : ¬ k = k0) : List.lookup k ((k0, v0) :: rest) = List.lookup k rest := by
  have hb : (k == k0) = false := by simpa using h
  rw [List.lookup_cons, hb]

theorem lookup_mapSet (g : Groups) (k k' : Str) (v : List PickCommit) :
    (mapSet g k v).lookup k' = if k' = k then some v else g.lookup k' := by
  induction g with
  | nil =>
    by_cases h : k' = k
    · subst h; simp [mapSet]
    · simp [mapSet, lookup_cons_ne _ _ _ _ h, h]
  | cons e rest ih =>
    obtain ⟨k0, v0⟩ := e
    unfold mapSet
    by_cases h0 : k0 = k
    · subst h0
      by_cases h : k' = k0
      · subst h; simp
      · simp [lookup_cons_ne _ _ _ _ h, h]
    · rw [if_neg h0]
      by_cases h : k' = k
      · subst h
        have h0' : ¬ k' = k0 := fun e => h0 e.symm
        simp [lookup_cons_ne _ _ _ _ h0', ih]
      · by_cases h1 : k' = k0
        · subst h1; simp [h]
        · simp [lookup_cons_ne _ _ _ _ h1, ih, h]

theorem mapGet_mapSet (g : Groups) (k k' : Str) (v : List PickCommit) :
    mapGet (mapSet g k v) k' = if k' = k then v else mapGet g k' := by
  unfold mapGet
  rw [lookup_mapSet]
  split_ifs <;> rfl

theorem keys_mapSet (g : Groups) (k : Str) (v : List PickCommit) :
    (mapSet g k v).map Prod.fst =
      if k ∈ g.map Prod.fst then g.map Prod.fst else g.map Prod.fst ++ [k] := by
  induction g with
  | nil => simp [mapSet]
  | cons e rest ih =>
    obtain ⟨k0, v0⟩ := e
    unfold mapSet
    by_cases h0 : k0 = k
    · subst h0; simp
    · have h0' : ¬ k = k0 := fun e => h0 e.symm
      rw [if_neg h0]
      simp only [List.map_cons, ih, List.mem_cons, h0', false_or]
      split_ifs <;> simp

theorem mem_keys_mapSet (g : Groups) (k k' : Str) (v : List PickCommit) :
    k' ∈ (mapSet g k v).map Prod.fst ↔ k' ∈ g.map Prod.fst ∨ k' = k := by
  rw [keys_mapSet]
  split_ifs with h
  · constructor
    · exact Or.inl
    · rintro (h' | rfl)
      · exact h'
      · exact h
  · simp

theorem nodup_keys_mapSet (g : Groups) (k : Str) (v : List PickCommit)
    (h : (g.map Prod.fst).Nodup) : ((mapSet g k v).map Prod.fst).Nodup := by
  rw [keys_mapSet]
  split_ifs with hk
  · exact h
  · rw [List.nodup_append]
    refine ⟨h, List.nodup_singleton k, ?_⟩
    intro x hx hx'
    rw [List.mem_singleton] at hx'
    subst hx'
    exact hk hx

theorem flatten_mapSet_perm (g : Groups) (k : Str) (c : PickCommit) :
    List.Perm ((mapSet g k (mapGet g k ++ [c])).map Prod.snd).flatten
      (c :: (g.map Prod.snd).flatten) := by
  induction g with
  | nil => simp [mapSet, mapGet]
  | cons e rest ih =>
    obtain ⟨k0, v0⟩ := e
    by_cases h0 : k0 = k
    · subst h0
      simp only [mapSet, mapGet, List.lookup_cons_self, Option.getD_some, if_true,
        List.map_cons, List.flatten_cons, List.append_assoc, List.singleton_append]
      exact List.perm_middle
    · have h0' : ¬ k = k0 := fun e => h0 e.symm
      have hget : mapGet ((k0, v0) :: rest) k = mapGet rest k := by
        simp [mapGet, lookup_cons_ne _ _ _ _ h0']
      rw [hget]
      simp only [mapSet, if_neg h0, List.map_cons, List.flatten_cons]
      exact ((List.Perm.append_left v0 ih).trans List.perm_middle)

theorem lookup_of_mem_nodup (g : Groups) (k : Str) (v : List PickCommit)
    (hnd : (g.map Prod.fst).Nodup) (hmem : (k, v) ∈ g) : g.lookup k = some v := by
  induction g with
  | nil => simp at hmem
  | cons e rest ih =>
    obtain ⟨k0, v0⟩ := e
    rw [List.map_cons, List.nodup_cons] at hnd
    rcases List.mem_cons.mp hmem with h | h
    · injection h with h1 h2
      subst h1 h2
      simp
    · have hk : k ∈ rest.map Prod.fst := List.mem_map.mpr ⟨(k, v), h, rfl⟩
      have hne : ¬ k = k0 := fun e => hnd.1 (e ▸ hk)
      rw [lookup_cons_ne _ _ _ _ hne, ih hnd.2 h]

theorem mem_of_lookup (g : Groups) (k : Str) (v : List PickCommit)
    (h : g.lookup k = some v) : (k, v) ∈ g := by
  induction g with
  | nil => simp at h
  | cons e rest ih =>
    obtain ⟨k0, v0⟩ := e
    by_cases hk : k = k0
    · subst hk
      simp at h
      subst h
      exact List.mem_cons_self _ _
    · rw [lookup_cons_ne _ _ _ _ hk] at h
      exact List.mem_cons_of_mem _ (ih h)

/-! ## The first loop of `handlePush` against the specification -/

theorem specPick_some (p : PushEvent) (forks : VendorForkMappings) (commit : Commit)
    (c : PickCommit) :
    specPick p forks commit = some c ↔
      ∃ c0 m, processCommit commit forks = some c0 ∧ c0.Mapping = some m ∧
        m.ForkRepository ≠ [] ∧
        c = { c0 with SourceRepository := p.RepoHTMLURL, Author := p.SenderLogin } := by
  unfold specPick
  cases hpc : processCommit commit forks with
  | none => simp
  | some c0 =>
    dsimp only
    cases hm : c0.Mapping with
    | none =>
      dsimp only
      constructor
      · intro h; exact Option.noConfusion h
      · rintro ⟨c1, m1, h1, h2, -, -⟩
        injection h1 with h1
        subst h1
        rw [hm] at h2
        exact Option.noConfusion h2
    | some m =>
      dsimp only
      by_cases hr : m.ForkRepository = []
      · rw [if_pos hr]
        constructor
        · intro h; exact Option.noConfusion h
        · rintro ⟨c1, m1, h1, h2, h3, -⟩
          injection h1 with h1
          subst h1
          rw [hm] at h2
          injection h2 with h2
          subst h2
          exact absurd hr h3
      · rw [if_neg hr]
        constructor
        · intro h
          injection h with h
          exact ⟨c0, m, rfl, hm, hr, by rw [← h, hm]⟩
        · rintro ⟨c1, m1, h1, -, -, h4⟩
          injection h1 with h1
          subst h1
          rw [h4, hm]

theorem processCommit_ID (commit : Commit) (forks : VendorForkMappings) (c0 : PickCommit)
    (h : processCommit commit forks = some c0) : c0.ID = commit.ID := by
  unfold processCommit at h
  by_cases hp : hasPrefix (trimSpace commit.Message) "UPSTREAM: ".toList = true
  · rw [if_pos hp] at h
    dsimp only at h
    cases hi : index (List.drop 10 (trimSpace commit.Message)) ": ".toList with
    | none =>
      rw [hi] at h
      exact Option.noConfusion h
    | some pos =>
      rw [hi] at h
      injection h with h
      rw [← h]
  · rw [if_neg hp] at h
    exact Option.noConfusion h

theorem specPick_mapping (p : PushEvent) (forks : VendorForkMappings) (commit : Commit)
    (c : PickCommit) (h : specPick p forks commit = some c) :
    c.ID = commit.ID ∧ c.SourceRepository = p.RepoHTMLURL ∧ c.Author = p.SenderLogin ∧
    ∃ m, c.Mapping = some m ∧ m.ForkRepository ≠ [] := by
  obtain ⟨c0, m, h1, h2, h3, rfl⟩ := (specPick_some p forks commit c).mp h
  exact ⟨processCommit_ID commit forks c0 h1, rfl, rfl, m, h2, h3⟩

theorem handlePushStep_eq (p : PushEvent) (forks : VendorForkMappings) (g : Groups)
    (commit : Commit) :
    handlePushStep p forks g commit =
      some (match specPick p forks commit with
            | none => g
            | some c => addPick g c) := by
  unfold handlePushStep specPick
  cases hpc : processCommit commit forks with
  | none => rfl
  | some c0 =>
    cases hm : c0.Mapping with
    | none => simp [PickCommit.ForkRepository, hm]
    | some m =>
      by_cases hr : m.ForkRepository = []
      · simp [PickCommit.ForkRepository, hm, hr]
      · simp [PickCommit.ForkRepository, PickCommit.WithBranch, addPick, specKey, hm, hr]

theorem handlePushLoop_eq (p : PushEvent) (forks : VendorForkMappings)
    (cs : List Commit) (g : Groups) :
    handlePushLoop p forks cs g =
      some ((cs.filterMap (specPick p forks)).foldl addPick g) := by
  induction cs generalizing g with
  | nil => rfl
  | cons commit rest ih =>
    unfold handlePushLoop
    rw [handlePushStep_eq]
    dsimp only
    rw [ih]
    cases hs : specPick p forks commit with
    | none => simp [List.filterMap_cons, hs]
    | some c => simp [List.filterMap_cons, hs]

theorem handlePushGroups_eq (p : PushEvent) (forks : VendorForkMappings) :
    handlePushGroups p forks = some ((specPicks p forks).foldl addPick []) :=
  handlePushLoop_eq p forks p.Commits []

theorem mapGet_addPick (g : Groups) (c : PickCommit) (k : Str) :
    mapGet (addPick g c) k = mapGet g k ++ [c].filter (specHasKey k) := by
  unfold addPick
  cases hm : c.Mapping with
  | none => simp [specHasKey, hm]
  | some m =>
    dsimp only
    rw [mapGet_mapSet]
    by_cases hk : k = specKey m
    · subst hk
      simp [specHasKey, hm]
    · have hk' : ¬ specKey m = k := fun e => hk e.symm
      simp [specHasKey, hm, hk, hk']

theorem mapGet_foldl (picks : List PickCommit) (g : Groups) (k : Str) :
    mapGet (picks.foldl addPick g) k = mapGet g k ++ picks.filter (specHasKey k) := by
  induction picks generalizing g with
  | nil => simp
  | cons c rest ih =>
    rw [List.foldl_cons, ih, mapGet_addPick, List.append_assoc, ← List.filter_append]
    rfl

theorem mem_keys_addPick (g : Groups) (c : PickCommit) (k : Str) :
    k ∈ (addPick g c).map Prod.fst ↔ k ∈ g.map Prod.fst ∨ specHasKey k c = true := by
  unfold addPick
  cases hm : c.Mapping with
  | none => simp [specHasKey, hm]
  | some m =>
    dsimp only
    rw [mem_keys_mapSet]
    have hk : specHasKey k c = true ↔ k = specKey m := by
      unfold specHasKey
      rw [hm]
      dsimp only
      rw [beq_iff_eq]
      exact eq_comm
    rw [hk]

theorem mem_keys_foldl (picks : List PickCommit) (g : Groups) (k : Str) :
    k ∈ (picks.foldl addPick g).map Prod.fst ↔
      k ∈ g.map Prod.fst ∨ ∃ c ∈ picks, specHasKey k c = true := by
  induction picks generalizing g with
  | nil => simp
  | cons c rest ih =>
    rw [List.foldl_cons, ih, mem_keys_addPick]
    constructor
    · rintro ((h | h) | ⟨c', hc', h⟩)
      · exact Or.inl h
      · exact Or.inr ⟨c, List.mem_cons_self _ _, h⟩
      · exact Or.inr ⟨c', List.mem_cons_of_mem _ hc', h⟩
    · rintro (h | ⟨c', hc', h⟩)
      · exact Or.inl (Or.inl h)
      · rcases List.mem_cons.mp hc' with rfl | hc''
        · exact Or.inl (Or.inr h)
        · exact Or.inr ⟨c', hc'', h⟩

theorem nodup_keys_addPick (g : Groups) (c : PickCommit)
    (h : (g.map Prod.fst).Nodup) : ((addPick g c).map Prod.fst).Nodup := by
  unfold addPick
  cases c.Mapping with
  | none => exact h
  | some m => exact nodup_keys_mapSet g _ _ h

theorem nodup_keys_foldl (picks : List PickCommit) (g : Groups)
    (h : (g.map Prod.fst).Nodup) : ((picks.foldl addPick g).map Prod.fst).Nodup := by
  induction picks generalizing g with
  | nil => exact h
  | cons c rest ih =>
    rw [List.foldl_cons]
    exact ih _ (nodup_keys_addPick g c h)

theorem flatten_foldl_perm (picks : List PickCommit) (g : Groups)
    (h : ∀ c ∈ picks, c.Mapping ≠ none) :
    List.Perm ((picks.foldl addPick g).map Prod.snd).flatten
      ((g.map Prod.snd).flatten ++ picks) := by
  induction picks generalizing g with
  | nil => simp
  | cons c rest ih =>
    rw [List.foldl_cons]
    refine (ih _ (fun c' hc' => h c' (List.mem_cons_of_mem _ hc'))).trans ?_
    have hc := h c (List.mem_cons_self _ _)
    have hadd : List.Perm ((addPick g c).map Prod.snd).flatten
        (c :: (g.map Prod.snd).flatten) := by
      unfold addPick
      cases hm : c.Mapping with
      | none => exact absurd hm hc
      | some m => exact flatten_mapSet_perm g _ c
    exact (List.Perm.append_right rest hadd).trans List.perm_middle.symm

theorem mem_specPicks (p : PushEvent) (forks : VendorForkMappings) (c : PickCommit)
    (h : c ∈ specPicks p forks) :
    ∃ commit ∈ p.Commits, specPick p forks commit = some c := by
  unfold specPicks at h
  exact List.mem_filterMap.mp h

theorem mem_groups_iff (p : PushEvent) (forks : VendorForkMappings) (k : Str)
    (grp : List PickCommit) :
    (k, grp) ∈ (specPicks p forks).foldl addPick [] ↔
      grp = specGroup p forks k ∧ grp ≠ [] := by
  have hnd := nodup_keys_foldl (specPicks p forks) [] List.nodup_nil
  have hget := mapGet_foldl (specPicks p forks) [] k
  have hkeys := mem_keys_foldl (specPicks p forks) [] k
  simp only [List.map_nil, List.not_mem_nil, false_or] at hkeys
  have hget' : mapGet ((specPicks p forks).foldl addPick []) k = specGroup p forks k := by
    rw [hget]; simp [mapGet, specGroup]
  constructor
  · intro hmem
    have hl := lookup_of_mem_nodup _ k grp hnd hmem
    have hg : grp = specGroup p forks k := by
      rw [← hget']; simp [mapGet, hl]
    refine ⟨hg, ?_⟩
    have hk : k ∈ ((specPicks p forks).foldl addPick []).map Prod.fst :=
      List.mem_map.mpr ⟨(k, grp), hmem, rfl⟩
    obtain ⟨c, hc, hck⟩ := hkeys.mp hk
    intro hnil
    have : c ∈ specGroup p forks k := List.mem_filter.mpr ⟨hc, hck⟩
    rw [← hg, hnil] at this
    exact absurd this (List.not_mem_nil c)
  · rintro ⟨hg, hne⟩
    apply mem_of_lookup
    have hex : ∃ c ∈ specPicks p forks, specHasKey k c = true := by
      cases hgrp : grp with
      | nil => exact absurd hgrp hne
      | cons c rest =>
        have : c ∈ specGroup p forks k := by
          rw [← hg, hgrp]; exact List.mem_cons_self _ _
        exact ⟨c, (List.mem_filter.mp this).1, (List.mem_filter.mp this).2⟩
    have hk := hkeys.mpr hex
    obtain ⟨⟨k', v⟩, hmem, hfst⟩ := List.mem_map.mp hk
    simp only at hfst
    subst hfst
    have hl := lookup_of_mem_nodup _ k' v hnd hmem
    rw [hl]
    have : v = specGroup p forks k' := by
      rw [← hget']; simp [mapGet, hl]
    rw [this, hg]

theorem specHasKey_iff (k : Str) (c : PickCommit) :
    specHasKey k c = true ↔ ∃ m, c.Mapping = some m ∧ specKey m = k := by
  unfold specHasKey
  cases c.Mapping with
  | none => simp
  | some m => simp

theorem withBranch_of_mapping (c : PickCommit) (m : ForkMapping) (h : c.Mapping = some m) :
    c.WithBranch = some (specKey m) := by
  simp [PickCommit.WithBranch, PickCommit.ForkRepository, specKey, h]

theorem filterMap_ID_sublist (p : PushEvent) (forks : VendorForkMappings)
    (cs : List Commit) :
    List.Sublist ((cs.filterMap (specPick p forks)).map PickCommit.ID)
      (cs.map Commit.ID) := by
  induction cs with
  | nil => simp
  | cons commit rest ih =>
    cases hs : specPick p forks commit with
    | none =>
      rw [List.filterMap_cons, hs]
      exact List.Sublist.cons _ ih
    | some c =>
      rw [List.filterMap_cons, hs]
      have hid := (specPick_mapping p forks commit c hs).1
      simp only [List.map_cons, hid]
      exact List.Sublist.cons₂ _ ih

theorem length_filterMap_specPick (p : PushEvent) (forks : VendorForkMappings)
    (cs : List Commit) :
    (cs.filterMap (specPick p forks)).length =
      (cs.filter (fun commit => (specPick p forks commit).isSome)).length := by
  induction cs with
  | nil => rfl
  | cons commit rest ih =>
    cases hs : specPick p forks commit with
    | none => simp [List.filterMap_cons, List.filter_cons, hs, ih]
    | some c => simp [List.filterMap_cons, List.filter_cons, hs, ih]

/-- Two commits of one push that resolve to the same destination, around a
commit that is not a pick: `handlePush` starts one orchestrator for the group of
both, in push order, under the short identifier of the first. -/
theorem handlePush_two_commits_one_group :
    handlePush
      ⟨[⟨"1111111aaa".toList, "UPSTREAM: containers/image: 1: first".toList⟩,
        ⟨"2222222bbb".toList, "Unrelated change".toList⟩,
        ⟨"3333333ccc".toList, " UPSTREAM: github.com/containers/image: 2: second".toList⟩],
       "https://github.com/org/src".toList, "bob".toList⟩
      ⟨[("containers/image".toList,
         ⟨"github.com/forkorg/containers-image".toList, "release-1.0".toList,
          "vendor/github.com/containers/image".toList⟩)]⟩ =
    some
      { err := none,
        started :=
          [{ ref := utf8 "1111111".toList,
             forkRepoBranch := "github.com/forkorg/containers-image#release-1.0".toList,
             picks :=
               [{ ID := "1111111aaa".toList,
                  SourceRepository := "https://github.com/org/src".toList,
                  Mapping := some ⟨"github.com/forkorg/containers-image".toList,
                    "release-1.0".toList, "vendor/github.com/containers/image".toList⟩,
                  Author := "bob".toList,
                  Message := "UPSTREAM: containers/image: 1: first".toList },
                { ID := "3333333ccc".toList,
                  SourceRepository := "https://github.com/org/src".toList,
                  Mapping := some ⟨"github.com/forkorg/containers-image".toList,
                    "release-1.0".toList, "vendor/github.com/containers/image".toList⟩,
                  Author := "bob".toList,
                  Message := "UPSTREAM: github.com/containers/image: 2: second".toList }] }] } := by
  decide

/-! ## The push event processor -/

/-- C8: the first loop of `handlePush` never panics, so `WithBranch` is never
evaluated on a pick without a mapping; in the grouping it builds every group is
non-empty and every pick of every group has a mapping with a non-empty
ForkRepository. -/
theorem handlePush_groups_invariant (p : PushEvent) (forks : VendorForkMappings) :
    (∀ (commits : Groups) (commit : Commit),
      handlePushStep p forks commits commit ≠ none) ∧
    ∃ g, handlePushGroups p forks = some g ∧
      ∀ k grp, (k, grp) ∈ g →
        grp ≠ [] ∧
        ∀ c ∈ grp, (∃ m, c.Mapping = some m ∧ m.ForkRepository ≠ []) ∧
          c.WithBranch ≠ none := by
  refine ⟨?_, _, handlePushGroups_eq p forks, ?_⟩
  · intro commits commit h
    rw [handlePushStep_eq] at h
    exact Option.noConfusion h
  · intro k grp hmem
    obtain ⟨hg, hne⟩ := (mem_groups_iff p forks k grp).mp hmem
    refine ⟨hne, ?_⟩
    intro c hc
    rw [hg] at hc
    have hc' : c ∈ specPicks p forks := (List.mem_filter.mp hc).1
    obtain ⟨commit, -, hs⟩ := mem_specPicks p forks c hc'
    obtain ⟨-, -, -, m, hm, hr⟩ := specPick_mapping p forks commit c hs
    refine ⟨⟨m, hm, hr⟩, ?_⟩
    rw [withBranch_of_mapping c m hm]
    exact fun h => Option.noConfusion h

/-- C9: the grouping of `handlePush` has every key once; under the key `k` it
holds exactly the picks of the push with destination key `k`, in push order,
whenever there is at least one; every pick of the group under `k` has the key
`k` = ForkRepository + `#` + ForkDefaultBranch, and the commit identifiers of a
group appear in the order of the push's commit list. -/
theorem handlePush_groups_by_key (p : PushEvent) (forks : VendorForkMappings) :
    ∃ g, handlePushGroups p forks = some g ∧
      (g.map Prod.fst).Nodup ∧
      (∀ k grp, (k, grp) ∈ g ↔
        grp = (p.Commits.filterMap (specPick p forks)).filter (specHasKey k) ∧ grp ≠ []) ∧
      (∀ k grp, (k, grp) ∈ g →
        (∀ c ∈ grp, ∃ m, c.Mapping = some m ∧
          k = m.ForkRepository ++ ['#'] ++ m.ForkDefaultBranch ∧
          c.WithBranch = some k) ∧
        List.Sublist (grp.map PickCommit.ID) (p.Commits.map Commit.ID)) := by
  refine ⟨_, handlePushGroups_eq p forks,
    nodup_keys_foldl (specPicks p forks) [] List.nodup_nil,
    fun k grp => mem_groups_iff p forks k grp, ?_⟩
  intro k grp hmem
  obtain ⟨hg, -⟩ := (mem_groups_iff p forks k grp).mp hmem
  constructor
  · intro c hc
    rw [hg] at hc
    obtain ⟨m, hm, hk⟩ := (specHasKey_iff k c).mp (List.mem_filter.mp hc).2
    refine ⟨m, hm, hk.symm, ?_⟩
    rw [withBranch_of_mapping c m hm, hk]
  · rw [hg]
    exact ((List.filter_sublist _).map PickCommit.ID).trans
      (filterMap_ID_sublist p forks p.Commits)

/-- C10: the picks held by the grouping of `handlePush` are, up to the order of
the groups, exactly the picks contributed by the commits of the push: one for
each commit that `processCommit` recognises with a mapping whose ForkRepository
is non-empty, carrying the push's repository URL and sender login, and none for
any other commit.  Their total number is the number of such commits; a push
without such a commit yields no group and no orchestrator invocation, and
`handlePush` returns nil; a dropped commit changes nothing in what `handlePush`
does. -/
theorem handlePush_picks_exactly_eligible (p : PushEvent) (forks : VendorForkMappings) :
    ∃ g, handlePushGroups p forks = some g ∧
      (∀ commit c, specPick p forks commit = some c ↔
        ∃ c0 m, processCommit commit forks = some c0 ∧ c0.Mapping = some m ∧
          m.ForkRepository ≠ [] ∧
          c = { c0 with SourceRepository := p.RepoHTMLURL, Author := p.SenderLogin }) ∧
      List.Perm (g.map Prod.snd).flatten (p.Commits.filterMap (specPick p forks)) ∧
      (g.map (fun e => e.2.length)).sum =
        (p.Commits.filter (fun commit => (specPick p forks commit).isSome)).length ∧
      ((∀ commit ∈ p.Commits, specPick p forks commit = none) →
        g = [] ∧ handlePush p forks = some { err := none, started := [] }) ∧
      (∀ pre post commit, p.Commits = pre ++ commit :: post →
        specPick p forks commit = none →
        handlePush p forks = handlePush { p with Commits := pre ++ post } forks) ∧
      (∀ r, handlePush p forks = some r → r.err = none) := by
  have hperm : List.Perm
      (((specPicks p forks).foldl addPick []).map Prod.snd).flatten (specPicks p forks) := by
    have := flatten_foldl_perm (specPicks p forks) [] (by
      intro c hc
      obtain ⟨commit, -, hs⟩ := mem_specPicks p forks c hc
      obtain ⟨-, -, -, m, hm, -⟩ := specPick_mapping p forks commit c hs
      rw [hm]
      exact fun h => Option.noConfusion h)
    simpa using this
  refine ⟨_, handlePushGroups_eq p forks, specPick_some p forks, hperm, ?_, ?_, ?_, ?_⟩
  · have hlen := hperm.length_eq
    rw [List.length_flatten, List.map_map] at hlen
    rw [← length_filterMap_specPick]
    exact hlen
  · intro hall
    have hnil : specPicks p forks = [] := by
      unfold specPicks
      rw [List.filterMap_eq_nil_iff]
      exact hall
    have hg : handlePushGroups p forks = some [] := by
      rw [handlePushGroups_eq, hnil]; rfl
    refine ⟨by rw [hnil]; rfl, ?_⟩
    unfold handlePush
    rw [hg]
    rfl
  · intro pre post commit hcs hdrop
    have hpicks : specPicks { p with Commits := pre ++ post } forks = specPicks p forks := by
      unfold specPicks
      rw [hcs]
      have hf : specPick { p with Commits := pre ++ post } forks = specPick p forks := rfl
      rw [hf, List.filterMap_append, List.filterMap_append, List.filterMap_cons, hdrop]
    unfold handlePush
    rw [handlePushGroups_eq, handlePushGroups_eq, hpicks]
  · intro r hr
    unfold handlePush at hr
    cases hg : handlePushGroups p forks with
    | none => rw [hg] at hr; exact Option.noConfusion hr
    | some commits =>
      rw [hg] at hr
      dsimp only at hr
      cases hst : handlePushStart commits with
      | none => rw [hst] at hr; exact Option.noConfusion hr
      | some started =>
        rw [hst] at hr
        injection hr with hr
        rw [← hr]

/-! ## Incomplete mappings and short identifiers -/

theorem specPick_none_of_empty_repository (p : PushEvent) (forks : VendorForkMappings)
    (commit : Commit) (c : PickCommit) (m : ForkMapping)
    (hrec : processCommit commit forks = some c) (hm : c.Mapping = some m)
    (hrepo : m.ForkRepository = []) : specPick p forks commit = none := by
  unfold specPick
  rw [hrec]
  dsimp only
  rw [hm]
  dsimp only
  rw [if_pos hrepo]

theorem specPicks_drop (p : PushEvent) (forks : VendorForkMappings) (commit : Commit)
    (pre post : List Commit) (h : specPick p forks commit = none) :
    specPicks { p with Commits := pre ++ commit :: post } forks =
      specPicks { p with Commits := pre ++ post } forks := by
  unfold specPicks
  have hf : specPick { p with Commits := pre ++ commit :: post } forks = specPick p forks := rfl
  have hg : specPick { p with Commits := pre ++ post } forks = specPick p forks := rfl
  rw [hf, hg]
  simp only [List.filterMap_append, List.filterMap_cons, h]

theorem group_pick_repository (p : PushEvent) (forks : VendorForkMappings) (k : Str)
    (grp : List PickCommit) (hmem : (k, grp) ∈ (specPicks p forks).foldl addPick [])
    (c : PickCommit) (hc : c ∈ grp) :
    ∃ m, c.Mapping = some m ∧ m.ForkRepository ≠ [] := by
  obtain ⟨hg, -⟩ := (mem_groups_iff p forks k grp).mp hmem
  rw [hg] at hc
  obtain ⟨commit, -, hs⟩ := mem_specPicks p forks c (List.mem_filter.mp hc).1
  obtain ⟨-, -, -, m, hm, hr⟩ := specPick_mapping p forks commit c hs
  exact ⟨m, hm, hr⟩

/-- Counterexample to C11: a recognised commit whose mapping has a fork
repository but neither a default branch nor a vendor path is kept: it is the
pick of the group `github.com/forkorg/fork#`. -/
theorem handlePush_incomplete_mapping_counterexample :
    handlePushGroups
      ⟨[⟨"c4eefeff07841366bbca7c86e71929a3c5bf2d04".toList,
          "UPSTREAM: containers/image: 2384: Fix".toList⟩],
       "https://github.com/org/src".toList, "bob".toList⟩
      ⟨[("containers/image".toList, ⟨"github.com/forkorg/fork".toList, [], []⟩)]⟩ =
    some [("github.com/forkorg/fork#".toList,
      [{ ID := "c4eefeff07841366bbca7c86e71929a3c5bf2d04".toList,
         SourceRepository := "https://github.com/org/src".toList,
         Mapping := some ⟨"github.com/forkorg/fork".toList, [], []⟩,
         Author := "bob".toList,
         Message := "UPSTREAM: containers/image: 2384: Fix".toList }])] := by
  decide

/-- C11, amended: a recognised commit whose resolved mapping has an empty fork
repository is discarded: it leaves the map of groups as it is, the grouping of
a push is the same with and without it, and no pick of any group carries its
mapping. -/
theorem handlePush_discards_empty_fork_repository (p : PushEvent)
    (forks : VendorForkMappings) (commit : Commit) (c : PickCommit) (m : ForkMapping)
    (hrec : processCommit commit forks = some c) (hm : c.Mapping = some m)
    (hrepo : m.ForkRepository = []) :
    (∀ commits : Groups, handlePushStep p forks commits commit = some commits) ∧
    (∀ pre post : List Commit,
      handlePushGroups { p with Commits := pre ++ commit :: post } forks =
        handlePushGroups { p with Commits := pre ++ post } forks) ∧
    (∃ g, handlePushGroups p forks = some g ∧
      ∀ k grp, (k, grp) ∈ g → ∀ pc ∈ grp, pc.Mapping ≠ some m) := by
  have hs := specPick_none_of_empty_repository p forks commit c m hrec hm hrepo
  refine ⟨?_, ?_, _, handlePushGroups_eq p forks, ?_⟩
  · intro commits
    rw [handlePushStep_eq, hs]
  · intro pre post
    rw [handlePushGroups_eq, handlePushGroups_eq, specPicks_drop p forks commit pre post hs]
  · intro k grp hmem pc hpc hpm
    obtain ⟨m', hm', hr'⟩ := group_pick_repository p forks k grp hmem pc hpc
    rw [hpm] at hm'
    injection hm' with hm'
    subst hm'
    exact hr' hrepo

/-- Witness of C11, amended: a table entry without fork repository. -/
theorem handlePush_discards_empty_fork_repository_witness :
    handlePushStep ⟨[], "https://github.com/org/src".toList, "bob".toList⟩
      ⟨[("containers/image".toList, ⟨[], "master".toList, "vendor/x".toList⟩)]⟩
      []
      ⟨"c4eefeff07841366bbca7c86e71929a3c5bf2d04".toList,
        "UPSTREAM: containers/image: 2384: Fix".toList⟩ = some [] :=
  (handlePush_discards_empty_fork_repository _ _ _
    { ID := "c4eefeff07841366bbca7c86e71929a3c5bf2d04".toList,
      SourceRepository := [],
      Mapping := some ⟨[], "master".toList, "vendor/x".toList⟩,
      Author := [],
      Message := "UPSTREAM: containers/image: 2384: Fix".toList }
    ⟨[], "master".toList, "vendor/x".toList⟩ (by decide) rfl rfl).1 []

theorem utf8EncodeChar_length_pos (c : Char) : 1 ≤ (utf8EncodeChar c).length := by
  unfold utf8EncodeChar
  dsimp only
  split_ifs <;> simp

theorem utf8_cons (c : Char) (s : Str) : utf8 (c :: s) = utf8EncodeChar c ++ utf8 s := rfl

theorem utf8_length_ge (s : Str) : s.length ≤ (utf8 s).length := by
  induction s with
  | nil => exact Nat.le_refl _
  | cons c cs ih =>
    rw [utf8_cons, List.length_append, List.length_cons]
    have := utf8EncodeChar_length_pos c
    omega

theorem utf8EncodeChar_ascii (c : Char) (h : c.toNat < 128) :
    utf8EncodeChar c = [c.toNat] := by
  unfold utf8EncodeChar
  dsimp only
  rw [if_pos (by omega)]

theorem utf8_take_ascii (s : Str) (n : Nat) (h : ∀ ch ∈ s.take n, ch.toNat < 128) :
    (utf8 s).take n = utf8 (s.take n) := by
  induction n generalizing s with
  | zero => rfl
  | succ n ih =>
    cases s with
    | nil => rfl
    | cons c cs =>
      have hc : c.toNat < 128 := h c (by rw [List.take_succ_cons]; exact List.mem_cons_self _ _)
      have hcs : ∀ ch ∈ cs.take n, ch.toNat < 128 := by
        intro ch hch
        exact h ch (by rw [List.take_succ_cons]; exact List.mem_cons_of_mem _ hch)
      rw [List.take_succ_cons, utf8_cons, utf8_cons, utf8EncodeChar_ascii c hc,
        List.singleton_append, List.take_succ_cons, List.singleton_append, ih cs hcs]

theorem handlePushStart_some (g : Groups)
    (h : ∀ k grp, (k, grp) ∈ g → ∃ c rest, grp = c :: rest ∧ 7 ≤ (utf8 c.ID).length) :
    ∃ started, handlePushStart g = some started ∧
      started.map (fun i => (i.forkRepoBranch, i.picks)) = g ∧
      ∀ i ∈ started, ∃ c rest, i.picks = c :: rest ∧ i.ref = (utf8 c.ID).take 7 := by
  induction g with
  | nil => exact ⟨[], rfl, rfl, fun i hi => absurd hi (List.not_mem_nil i)⟩
  | cons e rest ih =>
    obtain ⟨k, grp⟩ := e
    obtain ⟨c, tl, hgrp, hlen⟩ := h k grp (List.mem_cons_self _ _)
    obtain ⟨started, hst, hmap, hall⟩ :=
      ih (fun k' grp' hm => h k' grp' (List.mem_cons_of_mem _ hm))
    subst hgrp
    refine ⟨{ ref := (utf8 c.ID).take 7, forkRepoBranch := k, picks := c :: tl } :: started,
      ?_, ?_, ?_⟩
    · unfold handlePushStart
      dsimp only
      rw [if_neg (Nat.not_lt.mpr hlen), hst]
    · rw [List.map_cons, hmap]
    · intro i hi
      rcases List.mem_cons.mp hi with rfl | hi'
      · exact ⟨c, tl, rfl, rfl⟩
      · exact hall i hi'

theorem filter_filterMap_head {α β : Type} (f : α → Option β) (q : β → Bool)
    (cs : List α) (c : β) (rest : List β)
    (h : (cs.filterMap f).filter q = c :: rest) :
    ∃ pre a post, cs = pre ++ a :: post ∧ f a = some c ∧ q c = true ∧
      ∀ x ∈ pre, ∀ y, f x = some y → q y = false := by
  induction cs with
  | nil => simp at h
  | cons a tl ih =>
    cases hfa : f a with
    | none =>
      rw [List.filterMap_cons, hfa] at h
      obtain ⟨pre, a', post, hcs, hf, hq, hpre⟩ := ih h
      refine ⟨a :: pre, a', post, by rw [hcs]; rfl, hf, hq, ?_⟩
      intro x hx y hy
      rcases List.mem_cons.mp hx with rfl | hx'
      · rw [hfa] at hy; exact Option.noConfusion hy
      · exact hpre x hx' y hy
    | some b =>
      rw [List.filterMap_cons, hfa] at h
      dsimp only at h
      cases hqb : q b with
      | true =>
        rw [List.filter_cons, hqb, if_pos rfl] at h
        injection h with h1 h2
        subst h1
        exact ⟨[], a, tl, rfl, hfa, hqb, fun x hx => absurd hx (List.not_mem_nil x)⟩
      | false =>
        rw [List.filter_cons, hqb] at h
        simp only [Bool.false_eq_true, if_false] at h
        obtain ⟨pre, a', post, hcs, hf, hq, hpre⟩ := ih h
        refine ⟨a :: pre, a', post, by rw [hcs]; rfl, hf, hq, ?_⟩
        intro x hx y hy
        rcases List.mem_cons.mp hx with rfl | hx'
        · rw [hfa] at hy
          injection hy with hy
          rw [← hy]; exact hqb
        · exact hpre x hx' y hy

theorem specPicks_ID_bytes (p : PushEvent) (forks : VendorForkMappings)
    (h7 : ∀ c ∈ p.Commits, 7 ≤ (utf8 c.ID).length) (c : PickCommit)
    (hc : c ∈ specPicks p forks) : 7 ≤ (utf8 c.ID).length := by
  obtain ⟨commit, hmem, hs⟩ := mem_specPicks p forks c hc
  rw [(specPick_mapping p forks commit c hs).1]
  exact h7 commit hmem

theorem handlePush_started (p : PushEvent) (forks : VendorForkMappings)
    (h7 : ∀ c ∈ p.Commits, 7 ≤ (utf8 c.ID).length) :
    ∃ started, handlePush p forks = some { err := none, started := started } ∧
      started.map (fun i => (i.forkRepoBranch, i.picks)) =
        (specPicks p forks).foldl addPick [] ∧
      ∀ i ∈ started, ∃ c rest, i.picks = c :: rest ∧ i.ref = (utf8 c.ID).take 7 ∧
        7 ≤ (utf8 c.ID).length ∧ i.picks = specGroup p forks i.forkRepoBranch := by
  have hgroups : ∀ k grp, (k, grp) ∈ (specPicks p forks).foldl addPick [] →
      ∃ c rest, grp = c :: rest ∧ 7 ≤ (utf8 c.ID).length := by
    intro k grp hmem
    obtain ⟨hg, hne⟩ := (mem_groups_iff p forks k grp).mp hmem
    cases hgrp : grp with
    | nil => exact absurd hgrp hne
    | cons c rest =>
      refine ⟨c, rest, rfl, ?_⟩
      have hc : c ∈ specGroup p forks k := by
        rw [← hg, hgrp]; exact List.mem_cons_self _ _
      exact specPicks_ID_bytes p forks h7 c (List.mem_filter.mp hc).1
  obtain ⟨started, hst, hmap, hall⟩ := handlePushStart_some _ hgroups
  refine ⟨started, ?_, hmap, ?_⟩
  · unfold handlePush
    rw [handlePushGroups_eq]
    dsimp only
    rw [hst]
  · intro i hi
    obtain ⟨c, rest, hpicks, href⟩ := hall i hi
    have hmem : (i.forkRepoBranch, i.picks) ∈ (specPicks p forks).foldl addPick [] := by
      rw [← hmap]
      exact List.mem_map.mpr ⟨i, hi, rfl⟩
    obtain ⟨hg, -⟩ := (mem_groups_iff p forks _ _).mp hmem
    refine ⟨c, rest, hpicks, href, ?_, hg⟩
    have hc : c ∈ specGroup p forks i.forkRepoBranch := by
      rw [← hg, hpicks]; exact List.mem_cons_self _ _
    exact specPicks_ID_bytes p forks h7 c (List.mem_filter.mp hc).1

/-- Counterexample to C12: the identifier `é234567890` has 10 characters; its
first character takes two bytes, so the short identifier `ID[0:7]` passed by
`handlePush` is the 7 bytes of `é23456`, which is not the text of its first 7
characters `é234567`. -/
theorem handlePush_short_identifier_counterexample :
    "é234567890".toList.length = 10 ∧
    (handlePush
      ⟨[⟨"é234567890".toList, "UPSTREAM: containers/image: 1: first".toList⟩],
       "https://github.com/org/src".toList, "bob".toList⟩
      ⟨[("containers/image".toList,
         ⟨"github.com/forkorg/containers-image".toList, "release-1.0".toList,
          "vendor/github.com/containers/image".toList⟩)]⟩).map
      (fun r => r.started.map (fun i => i.ref)) =
      some [[195, 169, 50, 51, 52, 53, 54]] ∧
    utf8 "é23456".toList = [195, 169, 50, 51, 52, 53, 54] ∧
    utf8 ("é234567890".toList.take 7) = [195, 169, 50, 51, 52, 53, 54, 55] := by
  decide

/-- C12, amended: when every commit identifier of the push has at least 7
characters, `handlePush` does not panic on `groupedCommits[0].ID[0:7]`: it
starts one orchestrator per group of its grouping, and the short identifier it
passes is the first 7 bytes of the identifier of the group's first pick, which
is the pick of the earliest commit of the push with that destination; these
bytes are the first 7 characters of the identifier when those characters are
ASCII. -/
theorem handlePush_short_identifier (p : PushEvent) (forks : VendorForkMappings)
    (h7 : ∀ c ∈ p.Commits, 7 ≤ c.ID.length) :
    ∃ g r, handlePushGroups p forks = some g ∧ handlePush p forks = some r ∧
      r.started.map (fun i => (i.forkRepoBranch, i.picks)) = g ∧
      ∀ i ∈ r.started, ∃ first rest pre commit post,
        i.picks = first :: rest ∧
        i.ref = (utf8 first.ID).take 7 ∧ i.ref.length = 7 ∧
        ((∀ ch ∈ first.ID.take 7, ch.toNat < 128) → i.ref = utf8 (first.ID.take 7)) ∧
        p.Commits = pre ++ commit :: post ∧
        specPick p forks commit = some first ∧
        i.ref = (utf8 commit.ID).take 7 ∧
        specHasKey i.forkRepoBranch first = true ∧
        ∀ x ∈ pre, ∀ pc, specPick p forks x = some pc →
          specHasKey i.forkRepoBranch pc = false := by
  obtain ⟨started, hpush, hmap, hall⟩ := handlePush_started p forks
    (fun c hc => Nat.le_trans (h7 c hc) (utf8_length_ge c.ID))
  refine ⟨_, _, handlePushGroups_eq p forks, hpush, hmap, ?_⟩
  intro i hi
  obtain ⟨c, rest, hpicks, href, hlen, hg⟩ := hall i hi
  have hhead : (p.Commits.filterMap (specPick p forks)).filter (specHasKey i.forkRepoBranch) =
      c :: rest := by
    rw [← hpicks, hg]; rfl
  obtain ⟨pre, commit, post, hcs, hf, hq, hpre⟩ :=
    filter_filterMap_head _ _ _ _ _ hhead
  refine ⟨c, rest, pre, commit, post, hpicks, href, ?_, ?_, hcs, hf, ?_, hq, hpre⟩
  · rw [href, List.length_take]
    exact Nat.min_eq_left hlen
  · intro hascii
    rw [href, utf8_take_ascii c.ID 7 hascii]
  · rw [href, (specPick_mapping p forks commit c hf).1]

/-- Witness of C12, amended: a push of two picks for one destination around a
commit that is not a pick. -/
theorem handlePush_short_identifier_witness :
    ∃ g r,
      handlePushGroups
    ⟨[⟨"1111111aaa".toList, "UPSTREAM: containers/image: 1: first".toList⟩,
      ⟨"2222222bbb".toList, "Unrelated change".toList⟩,
      ⟨"3333333ccc".toList, "UPSTREAM: containers/image: 2: second".toList⟩],
     "https://github.com/org/src".toList, "bob".toList⟩
    ⟨[("containers/image".toList,
       ⟨"github.com/forkorg/containers-image".toList, "release-1.0".toList,
        "vendor/github.com/containers/image".toList⟩)]⟩ = some g ∧
      handlePush
    ⟨[⟨"1111111aaa".toList, "UPSTREAM: containers/image: 1: first".toList⟩,
      ⟨"2222222bbb".toList, "Unrelated change".toList⟩,
      ⟨"3333333ccc".toList, "UPSTREAM: containers/image: 2: second".toList⟩],
     "https://github.com/org/src".toList, "bob".toList⟩
    ⟨[("containers/image".toList,
       ⟨"github.com/forkorg/containers-image".toList, "release-1.0".toList,
        "vendor/github.com/containers/image".toList⟩)]⟩ = some r ∧
      r.started.map (fun i => (i.forkRepoBranch, i.picks)) = g := by
  obtain ⟨g, r, h1, h2, h3, -⟩ := handlePush_short_identifier
    ⟨[⟨"1111111aaa".toList, "UPSTREAM: containers/image: 1: first".toList⟩,
      ⟨"2222222bbb".toList, "Unrelated change".toList⟩,
      ⟨"3333333ccc".toList, "UPSTREAM: containers/image: 2: second".toList⟩],
     "https://github.com/org/src".toList, "bob".toList⟩
    ⟨[("containers/image".toList,
       ⟨"github.com/forkorg/containers-image".toList, "release-1.0".toList,
        "vendor/github.com/containers/image".toList⟩)]⟩ (by decide)
  exact ⟨g, r, h1, h2, h3⟩

/-! ## Working-branch names -/

theorem workingBranch_inj (b1 b2 s1 s2 : Str) (hlen : s1.length = s2.length)
    (h : workingBranch b1 s1 = workingBranch b2 s2) : b1 = b2 ∧ s1 = s2 := by
  unfold workingBranch at h
  rw [List.append_assoc, List.append_assoc, List.append_assoc, List.append_assoc] at h
  have h1 := List.append_cancel_left h
  rw [← List.append_assoc, ← List.append_assoc] at h1
  obtain ⟨h2, h3⟩ := List.append_inj' h1 hlen
  exact ⟨List.append_cancel_right h2, h3⟩

theorem workingBranchBytes_inj (b1 b2 s1 s2 : Bytes) (hlen : s1.length = s2.length)
    (h : workingBranchBytes b1 s1 = workingBranchBytes b2 s2) : b1 = b2 ∧ s1 = s2 := by
  unfold workingBranchBytes at h
  rw [List.append_assoc, List.append_assoc, List.append_assoc, List.append_assoc] at h
  have h1 := List.append_cancel_left h
  rw [← List.append_assoc, ← List.append_assoc] at h1
  obtain ⟨h2, h3⟩ := List.append_inj' h1 hlen
  exact ⟨List.append_cancel_right h2, h3⟩

theorem utf8_append (a b : Str) : utf8 (a ++ b) = utf8 a ++ utf8 b := by
  unfold utf8
  rw [List.map_append, List.flatten_append]

theorem workingBranchBytes_utf8 (forkBranch ref : Str) :
    workingBranchBytes (utf8 forkBranch) (utf8 ref) = utf8 (workingBranch forkBranch ref) := by
  unfold workingBranchBytes workingBranch
  rw [utf8_append, utf8_append, utf8_append]

theorem specPicks_short_nodup (p : PushEvent) (forks : VendorForkMappings)
    (hnd : (p.Commits.map (fun c => (utf8 c.ID).take 7)).Nodup) :
    ((specPicks p forks).map (fun c => (utf8 c.ID).take 7)).Nodup := by
  have hsub := (filterMap_ID_sublist p forks p.Commits).map (fun id => (utf8 id).take 7)
  rw [List.map_map, List.map_map] at hsub
  exact List.Nodup.sublist hsub hnd

/-- Counterexample to C15: the identifiers `éééé111` and `éééé222` have 7
characters each and differ, yet their first 7 bytes are the same, cut inside
the fourth `é`: the two destination groups of the push, which have different
keys and the same fork branch, get the same working-branch name. -/
theorem handlePush_working_branches_counterexample :
    "éééé111".toList.length = 7 ∧ "éééé222".toList.length = 7 ∧
    "éééé111".toList.take 7 ≠ "éééé222".toList.take 7 ∧
    (handlePush
    ⟨[⟨"éééé111".toList, "UPSTREAM: containers/image: 1: first".toList⟩,
      ⟨"éééé222".toList, "UPSTREAM: k8s.io/kubernetes: 2: second".toList⟩],
     "https://github.com/org/src".toList, "bob".toList⟩
    ⟨[("containers/image".toList,
       ⟨"github.com/forkorg/containers-image".toList, "master".toList,
        "vendor/github.com/containers/image".toList⟩),
      ("k8s.io/kubernetes".toList,
       ⟨"github.com/forkorg/kubernetes".toList, "master".toList,
        "vendor/k8s.io/kubernetes".toList⟩)]⟩).map
      (fun r => r.started.map
        (fun i => (i.forkRepoBranch, i.ref, workingBranchBytes (utf8 "master".toList) i.ref))) =
      some
        [("github.com/forkorg/containers-image#master".toList,
          [195, 169, 195, 169, 195, 169, 195],
          utf8 "auto-pick-master-".toList ++ [195, 169, 195, 169, 195, 169, 195]),
         ("github.com/forkorg/kubernetes#master".toList,
          [195, 169, 195, 169, 195, 169, 195],
          utf8 "auto-pick-master-".toList ++ [195, 169, 195, 169, 195, 169, 195])] := by
  decide

/-- C15, amended: when the commit identifiers of the push have at least 7
characters and pairwise distinct 7-byte prefixes, the orchestrators started by
`handlePush` for two different destination keys get different short
identifiers of 7 bytes, hence different working-branch names whatever their
base branches; and for short identifiers of equal length two working-branch
names are equal only if the base branches and the short identifiers are
equal. -/
theorem handlePush_working_branches_distinct (p : PushEvent) (forks : VendorForkMappings)
    (h7 : ∀ c ∈ p.Commits, 7 ≤ c.ID.length)
    (hnd : (p.Commits.map (fun c => (utf8 c.ID).take 7)).Nodup) :
    (∃ r, handlePush p forks = some r ∧
      ∀ i ∈ r.started, ∀ j ∈ r.started, i.forkRepoBranch ≠ j.forkRepoBranch →
        i.ref.length = 7 ∧ j.ref.length = 7 ∧ i.ref ≠ j.ref ∧
        ∀ b1 b2 : Bytes, workingBranchBytes b1 i.ref ≠ workingBranchBytes b2 j.ref) ∧
    (∀ b1 b2 s1 s2 : Bytes, s1.length = s2.length →
      workingBranchBytes b1 s1 = workingBranchBytes b2 s2 → b1 = b2 ∧ s1 = s2) ∧
    (∀ b1 b2 s1 s2 : Str, s1.length = s2.length →
      workingBranch b1 s1 = workingBranch b2 s2 → b1 = b2 ∧ s1 = s2) := by
  refine ⟨?_, workingBranchBytes_inj, workingBranch_inj⟩
  obtain ⟨started, hpush, -, hall⟩ := handlePush_started p forks
    (fun c hc => Nat.le_trans (h7 c hc) (utf8_length_ge c.ID))
  refine ⟨_, hpush, ?_⟩
  intro i hi j hj hne
  obtain ⟨ci, resti, hpi, hri, hli, hgi⟩ := hall i hi
  obtain ⟨cj, restj, hpj, hrj, hlj, hgj⟩ := hall j hj
  have hleni : i.ref.length = 7 := by
    rw [hri, List.length_take]; exact Nat.min_eq_left hli
  have hlenj : j.ref.length = 7 := by
    rw [hrj, List.length_take]; exact Nat.min_eq_left hlj
  have hci : ci ∈ specGroup p forks i.forkRepoBranch := by
    rw [← hgi, hpi]; exact List.mem_cons_self _ _
  have hcj : cj ∈ specGroup p forks j.forkRepoBranch := by
    rw [← hgj, hpj]; exact List.mem_cons_self _ _
  have href : i.ref ≠ j.ref := by
    intro heq
    rw [hri, hrj] at heq
    have hsame : ci = cj :=
      List.inj_on_of_nodup_map (specPicks_short_nodup p forks hnd)
        (List.mem_filter.mp hci).1 (List.mem_filter.mp hcj).1 heq
    obtain ⟨mi, hmi, hki⟩ := (specHasKey_iff _ _).mp (List.mem_filter.mp hci).2
    obtain ⟨mj, hmj, hkj⟩ := (specHasKey_iff _ _).mp (List.mem_filter.mp hcj).2
    rw [hsame, hmj] at hmi
    injection hmi with hmi
    rw [hmi] at hkj
    exact hne (hki.symm.trans hkj)
  refine ⟨hleni, hlenj, href, ?_⟩
  intro b1 b2 hwb
  exact href (workingBranchBytes_inj b1 b2 _ _ (hleni.trans hlenj.symm) hwb).2

/-- Witness of C15, amended: a push with picks for two destinations; the
working branches of the two orchestrators differ. -/
theorem handlePush_working_branches_distinct_witness :
    workingBranchBytes (utf8 "release-1.0".toList) (utf8 "1111111".toList) ≠
      workingBranchBytes (utf8 "master".toList) (utf8 "2222222".toList) := by
  obtain ⟨r, hr, hall⟩ := (handlePush_working_branches_distinct
    ⟨[⟨"1111111aaa".toList, "UPSTREAM: containers/image: 1: first".toList⟩,
      ⟨"2222222bbb".toList, "UPSTREAM: k8s.io/kubernetes: 2: second".toList⟩],
     "https://github.com/org/src".toList, "bob".toList⟩
    ⟨[("containers/image".toList,
       ⟨"github.com/forkorg/containers-image".toList, "release-1.0".toList,
        "vendor/github.com/containers/image".toList⟩),
      ("k8s.io/kubernetes".toList,
       ⟨"github.com/forkorg/kubernetes".toList, "master".toList,
        "vendor/k8s.io/kubernetes".toList⟩)]⟩
    (by decide) (by decide)).1
  have hval : (handlePush
    ⟨[⟨"1111111aaa".toList, "UPSTREAM: containers/image: 1: first".toList⟩,
      ⟨"2222222bbb".toList, "UPSTREAM: k8s.io/kubernetes: 2: second".toList⟩],
     "https://github.com/org/src".toList, "bob".toList⟩
    ⟨[("containers/image".toList,
       ⟨"github.com/forkorg/containers-image".toList, "release-1.0".toList,
        "vendor/github.com/containers/image".toList⟩),
      ("k8s.io/kubernetes".toList,
       ⟨"github.com/forkorg/kubernetes".toList, "master".toList,
        "vendor/k8s.io/kubernetes".toList⟩)]⟩).map
      (fun r => r.started.map (fun i => (i.ref, i.forkRepoBranch))) =
      some [(utf8 "1111111".toList, "github.com/forkorg/containers-image#release-1.0".toList),
            (utf8 "2222222".toList, "github.com/forkorg/kubernetes#master".toList)] := by
    decide
  rw [hr] at hval
  simp only [Option.map_some', Option.some.injEq] at hval
  cases hs : r.started with
  | nil => rw [hs] at hval; simp at hval
  | cons i t =>
    cases t with
    | nil => rw [hs] at hval; simp at hval
    | cons j t2 =>
      cases t2 with
      | cons _ _ => rw [hs] at hval; simp at hval
      | nil =>
        rw [hs] at hval
        simp only [List.map_cons, List.map_nil, List.cons.injEq, Prod.mk.injEq,
          and_true] at hval
        obtain ⟨⟨hi1, hi2⟩, hj1, hj2⟩ := hval
        have h := (hall i (by rw [hs]; simp) j (by rw [hs]; simp)
          (by rw [hi2, hj2]; decide)).2.2.2 (utf8 "release-1.0".toList)
            (utf8 "master".toList)
        rw [hi1, hj1] at h
        exact h

/-! ## Splitting and joining -/

theorem split_of_not_mem (sep : Char) (a : Str) (h : sep ∉ a) : split sep a = [a] := by
  induction a with
  | nil => rfl
  | cons c cs ih =>
    have hc : ¬ c = sep := fun e => h (e ▸ List.mem_cons_self _ _)
    have hcs : sep ∉ cs := fun e => h (List.mem_cons_of_mem _ e)
    unfold split
    rw [if_neg hc, ih hcs]

theorem split_append_sep (sep : Char) (a b : Str) (h : sep ∉ a) :
    split sep (a ++ sep :: b) = a :: split sep b := by
  induction a with
  | nil =>
    rw [List.nil_append]
    conv => lhs; unfold split
    rw [if_pos rfl]
  | cons c cs ih =>
    have hc : ¬ c = sep := fun e => h (e ▸ List.mem_cons_self _ _)
    have hcs : sep ∉ cs := fun e => h (List.mem_cons_of_mem _ e)
    rw [List.cons_append]
    conv => lhs; unfold split
    rw [if_neg hc, ih hcs]

theorem join_cons_cons (sep a b : Str) (rest : List Str) :
    join sep (a :: b :: rest) = a ++ sep ++ join sep (b :: rest) := by
  conv => lhs; unfold join

theorem split_join (sep : Char) (segs : List Str) (hne : segs ≠ [])
    (h : ∀ seg ∈ segs, sep ∉ seg) : split sep (join [sep] segs) = segs := by
  induction segs with
  | nil => exact absurd rfl hne
  | cons a rest ih =>
    cases rest with
    | nil =>
      show split sep a = [a]
      exact split_of_not_mem sep a (h a (List.mem_cons_self _ _))
    | cons b rest' =>
      rw [join_cons_cons, List.append_assoc, List.singleton_append,
        split_append_sep sep a _ (h a (List.mem_cons_self _ _)),
        ih (List.cons_ne_nil _ _) (fun seg hs => h seg (List.mem_cons_of_mem _ hs))]

theorem join_split (sep : Char) (s : Str) : join [sep] (split sep s) = s := by
  induction s with
  | nil => rfl
  | cons c cs ih =>
    unfold split
    by_cases hc : c = sep
    · rw [if_pos hc]
      cases hsp : split sep cs with
      | nil => exact absurd hsp (split_ne_nil sep cs)
      | cons seg rest =>
        rw [join_cons_cons, ← hsp, ih, hc]
        rfl
    · rw [if_neg hc]
      cases hsp : split sep cs with
      | nil => exact absurd hsp (split_ne_nil sep cs)
      | cons seg rest =>
        rw [hsp] at ih
        dsimp only
        cases rest with
        | nil =>
          have : seg = cs := ih
          rw [this]
          rfl
        | cons b rest' =>
          rw [join_cons_cons] at ih ⊢
          rw [← ih]
          simp only [List.cons_append, List.append_assoc]

theorem count_join (sep : Char) (segs : List Str) (hne : segs ≠ [])
    (h : ∀ seg ∈ segs, sep ∉ seg) : count sep (join [sep] segs) + 1 = segs.length := by
  induction segs with
  | nil => exact absurd rfl hne
  | cons a rest ih =>
    have ha : List.count sep a = 0 := List.count_eq_zero.mpr (h a (List.mem_cons_self _ _))
    cases rest with
    | nil =>
      show List.count sep a + 1 = 1
      rw [ha]
    | cons b rest' =>
      have ih' := ih (List.cons_ne_nil _ _) (fun seg hs => h seg (List.mem_cons_of_mem _ hs))
      unfold count at ih' ⊢
      rw [join_cons_cons, List.count_append, List.count_append, ha]
      simp only [List.count_cons_self, List.count_nil, List.length_cons] at ih' ⊢
      omega

/-! ## The strip option of `applyPatch` -/

/-- C16: when the VendorPath of the pick's mapping is made of `n >= 1` segments
without `/` joined by `/`, `applyPatch` runs `git am` with the strip option
`-p` followed by the decimal `n + 1`, which is the number of `/` of VendorPath
plus 2, and removing `n + 1` leading components from the patch path
`a/` + VendorPath + `/` + rel leaves rel. -/
theorem applyPatch_strip_count (c : PickCommit) (m : ForkMapping) (segs : List Str)
    (baseRepoDir patchFile : Str)
    (hm : c.Mapping = some m) (hne : segs ≠ [])
    (hsegs : ∀ seg ∈ segs, '/' ∉ seg)
    (hpath : m.VendorPath = join ['/'] segs) :
    count '/' m.VendorPath + 2 = segs.length + 1 ∧
    applyPatch c baseRepoDir patchFile =
      some (Op.applyPatch c.ID baseRepoDir
        ["am".toList, "-3".toList, "--ignore-whitespace".toList,
         "-p".toList ++ decimal (segs.length + 1), patchFile]) ∧
    ∀ rel : Str,
      stripComponents (segs.length + 1)
        ("a/".toList ++ m.VendorPath ++ "/".toList ++ rel) = rel := by
  have hcount : count '/' m.VendorPath + 2 = segs.length + 1 := by
    have := count_join '/' segs hne hsegs
    rw [hpath]
    omega
  refine ⟨hcount, ?_, ?_⟩
  · unfold applyPatch stripSlashesCount
    rw [hm]
    dsimp only
    rw [hcount]
  · intro rel
    unfold stripComponents
    have hsplit : split '/' ("a/".toList ++ m.VendorPath ++ "/".toList ++ rel) =
        ['a'] :: (segs ++ split '/' rel) := by
      have h1 : "a/".toList ++ m.VendorPath ++ "/".toList ++ rel =
          ['a'] ++ '/' :: (m.VendorPath ++ '/' :: rel) := by
        simp [List.append_assoc]
      rw [h1, split_append_sep '/' ['a'] _ (by decide), hpath]
      congr 1
      clear h1 hcount hpath
      induction segs with
      | nil => exact absurd rfl hne
      | cons a rest ih =>
        cases rest with
        | nil =>
          show split '/' (a ++ '/' :: rel) = [a] ++ split '/' rel
          rw [split_append_sep '/' a _ (hsegs a (List.mem_cons_self _ _))]
          rfl
        | cons b rest' =>
          rw [join_cons_cons, List.append_assoc, List.append_assoc, List.singleton_append,
            split_append_sep '/' a _ (hsegs a (List.mem_cons_self _ _)),
            ih (List.cons_ne_nil _ _) (fun seg hs => hsegs seg (List.mem_cons_of_mem _ hs))]
          rfl
    rw [hsplit]
    have hdrop : (['a'] :: (segs ++ split '/' rel)).drop (segs.length + 1) = split '/' rel := by
      rw [List.drop_succ_cons, List.drop_left]
    rw [hdrop, join_split]

/-- Witness of C16: the vendor path of the repository's own test, 4 segments,
strip option `-p5`. -/
theorem applyPatch_strip_count_witness :
    applyPatch
      { ID := "c4eefeff07841366bbca7c86e71929a3c5bf2d04".toList,
        SourceRepository := "https://github.com/org/src".toList,
        Mapping := some ⟨"github.com/forkorg/containers-image".toList,
          "release-1.0".toList, "vendor/github.com/containers/image".toList⟩,
        Author := "bob".toList,
        Message := "UPSTREAM: containers/image: 2384: Some commit message".toList }
      "/tmp/clone".toList "/tmp/c4eefef.patch".toList =
    some (Op.applyPatch "c4eefeff07841366bbca7c86e71929a3c5bf2d04".toList "/tmp/clone".toList
      ["am".toList, "-3".toList, "--ignore-whitespace".toList,
       "-p".toList ++ decimal (["vendor".toList, "github.com".toList, "containers".toList,
         "image".toList].length + 1), "/tmp/c4eefef.patch".toList]) :=
  (applyPatch_strip_count _
    ⟨"github.com/forkorg/containers-image".toList, "release-1.0".toList,
      "vendor/github.com/containers/image".toList⟩
    ["vendor".toList, "github.com".toList, "containers".toList, "image".toList]
    _ _ rfl (by decide) (by decide) (by decide)).2.1

/-! ## Runs of the orchestrator -/

theorem allOk_append (w : World) (hist a b : List Op) :
    AllOk w hist (a ++ b) ↔ AllOk w hist a ∧ AllOk w (hist ++ a) b := by
  induction a generalizing hist with
  | nil => simp [AllOk]
  | cons o os ih =>
    show (w.succeeds hist o = true ∧ AllOk w (hist ++ [o]) (os ++ b)) ↔
      (w.succeeds hist o = true ∧ AllOk w (hist ++ [o]) os) ∧ AllOk w (hist ++ o :: os) b
    rw [ih, and_assoc, List.append_assoc, List.singleton_append]

theorem allOk_position (w : World) (Q R hist tail : List Op) (op : Op)
    (hQ : AllOk w [] Q) (heq : Q ++ R = hist ++ op :: tail)
    (hfail : w.succeeds hist op = false) :
    ∃ pre, hist = Q ++ pre ∧ R = pre ++ op :: tail := by
  rcases List.append_eq_append_iff.mp heq with ⟨a', h1, h2⟩ | ⟨c', h1, h2⟩
  · exact ⟨a', h1, h2⟩
  · cases c' with
    | nil =>
      refine ⟨[], ?_, ?_⟩
      · rw [h1, List.append_nil, List.append_nil]
      · rw [List.nil_append] at h2 ⊢
        exact h2.symm
    | cons o c'' =>
      rw [List.cons_append] at h2
      injection h2 with h3 h4
      subst h3
      rw [h1, allOk_append] at hQ
      have := hQ.2
      rw [List.nil_append] at this
      rw [this.1] at hfail
      exact Bool.noConfusion hfail

theorem runOps_true (w : World) (hist ops h' : List Op)
    (h : runOps w hist ops = (h', true)) : h' = hist ++ ops ∧ AllOk w hist ops := by
  induction ops generalizing hist with
  | nil =>
    unfold runOps at h
    injection h with h1 _
    exact ⟨by rw [← h1, List.append_nil], trivial⟩
  | cons o os ih =>
    unfold runOps at h
    cases hs : w.succeeds hist o with
    | true =>
      rw [hs, if_pos rfl] at h
      obtain ⟨h1, h2⟩ := ih _ h
      exact ⟨by rw [h1, List.append_assoc, List.singleton_append], hs, h2⟩
    | false =>
      rw [hs] at h
      simp only [Bool.false_eq_true, if_false] at h
      injection h with _ h2
      exact Bool.noConfusion h2

theorem runOps_false (w : World) (hist ops h' : List Op)
    (h : runOps w hist ops = (h', false)) :
    ∃ pre f post, ops = pre ++ f :: post ∧ h' = hist ++ pre ++ [f] ∧
      AllOk w hist pre ∧ w.succeeds (hist ++ pre) f = false := by
  induction ops generalizing hist with
  | nil =>
    unfold runOps at h
    injection h with _ h2
    exact Bool.noConfusion h2
  | cons o os ih =>
    unfold runOps at h
    cases hs : w.succeeds hist o with
    | true =>
      rw [hs, if_pos rfl] at h
      obtain ⟨pre, f, post, h1, h2, h3, h4⟩ := ih _ h
      refine ⟨o :: pre, f, post, by rw [h1]; rfl, ?_, ⟨hs, h3⟩, ?_⟩
      · rw [h2]; simp
      · rw [← h4]; simp
    | false =>
      rw [hs] at h
      simp only [Bool.false_eq_true, if_false] at h
      injection h with h1 _
      exact ⟨[], o, os, rfl, by rw [← h1, List.append_nil], trivial,
        by rw [List.append_nil]; exact hs⟩

theorem applyPatch_some (c : PickCommit) (dir pf : Str) (am : Op)
    (h : applyPatch c dir pf = some am) :
    am.isPatch = true ∧ am.isPublish = false ∧ am.patchStep = some (true, c.ID) ∧
      c.Mapping ≠ none := by
  unfold applyPatch at h
  cases hm : c.Mapping with
  | none => rw [hm] at h; exact Option.noConfusion h
  | some m =>
    rw [hm] at h
    injection h with h
    rw [← h]
    exact ⟨rfl, rfl, rfl, fun e => Option.noConfusion e⟩

theorem applyPatch_none (c : PickCommit) (dir pf : Str)
    (h : applyPatch c dir pf = none) : c.Mapping = none := by
  unfold applyPatch at h
  cases hm : c.Mapping with
  | none => rfl
  | some m => rw [hm] at h; exact Option.noConfusion h

theorem specPatchSteps_cons (c : PickCommit) (rest : List PickCommit) :
    specPatchSteps (c :: rest) = (false, c.ID) :: (true, c.ID) :: specPatchSteps rest := rfl

theorem specPatchSteps_nil : specPatchSteps [] = [] := rfl

theorem getPatchFile_facts (a b : Str) :
    (getPatchFile a b).isPatch = true ∧ (getPatchFile a b).isPublish = false ∧
      (getPatchFile a b).patchStep = some (false, b) :=
  ⟨rfl, rfl, rfl⟩

theorem pickLoop_done (w : World) (picks : List PickCommit) (hist : List Op)
    (m a : List Str) (s : Str) (h' : List Op) (m' a' : List Str) (s' : Str)
    (h : pickLoop w picks hist m a s = .done h' m' a' s') :
    ∃ t, h' = hist ++ t ∧ AllOk w hist t ∧
      (∀ o ∈ t, o.isPatch = true ∧ o.isPublish = false) ∧
      t.filterMap Op.patchStep = specPatchSteps picks ∧
      m' = m ++ picks.map PickCommit.Message ∧
      a' = a ++ picks.map PickCommit.Author ∧
      ∀ c ∈ picks, c.Mapping ≠ none := by
  induction picks generalizing hist m a s with
  | nil =>
    unfold pickLoop at h
    injection h with h1 h2 h3 h4
    exact ⟨[], by rw [← h1, List.append_nil], trivial,
      fun o ho => absurd ho (List.not_mem_nil o), rfl,
      by rw [← h2, List.map_nil, List.append_nil],
      by rw [← h3, List.map_nil, List.append_nil],
      fun c hc => absurd hc (List.not_mem_nil c)⟩
  | cons commit rest ih =>
    unfold pickLoop at h
    dsimp only at h
    cases hf : w.succeeds hist (getPatchFile commit.SourceRepository commit.ID) with
    | false =>
      rw [hf] at h
      simp only [Bool.false_eq_true, if_false] at h
      exact LoopResult.noConfusion h
    | true =>
      rw [hf, if_pos rfl] at h
      cases ha : applyPatch commit w.repoDir
          (w.patchFile commit.SourceRepository commit.ID) with
      | none =>
        rw [ha] at h
        exact LoopResult.noConfusion h
      | some am =>
        rw [ha] at h
        dsimp only at h
        cases hs2 : w.succeeds
            (hist ++ [getPatchFile commit.SourceRepository commit.ID]) am with
        | false =>
          rw [hs2] at h
          simp only [Bool.false_eq_true, if_false] at h
          exact LoopResult.noConfusion h
        | true =>
          rw [hs2, if_pos rfl] at h
          obtain ⟨t, h1, h2, h3, h4, h5, h6, h7⟩ := ih _ _ _ _ h
          obtain ⟨ham1, ham2, ham3, ham4⟩ := applyPatch_some _ _ _ _ ha
          refine ⟨getPatchFile commit.SourceRepository commit.ID :: am :: t,
            ?_, ⟨hf, hs2, ?_⟩, ?_, ?_, ?_, ?_, ?_⟩
          · rw [h1]; simp
          · have : hist ++ [getPatchFile commit.SourceRepository commit.ID] ++ [am] =
                hist ++ [getPatchFile commit.SourceRepository commit.ID, am] := by simp
            rw [this]; exact h2
          · intro o ho
            rcases List.mem_cons.mp ho with rfl | ho
            · exact ⟨rfl, rfl⟩
            · rcases List.mem_cons.mp ho with rfl | ho
              · exact ⟨ham1, ham2⟩
              · exact h3 o ho
          · rw [List.filterMap_cons, (getPatchFile_facts _ _).2.2]
            dsimp only
            rw [List.filterMap_cons, ham3]
            dsimp only
            rw [h4, specPatchSteps_cons]
          · rw [h5]; simp
          · rw [h6]; simp
          · intro c hc
            rcases List.mem_cons.mp hc with rfl | hc
            · exact ham4
            · exact h7 c hc

theorem pickLoop_failed (w : World) (picks : List PickCommit) (hist : List Op)
    (m a : List Str) (s : Str) (h' : List Op)
    (h : pickLoop w picks hist m a s = .failed h') :
    ∃ t f pre c post, h' = hist ++ t ++ [f] ∧ AllOk w hist t ∧
      (∀ o ∈ t, o.isPatch = true ∧ o.isPublish = false) ∧
      f.isPatch = true ∧ f.isPublish = false ∧
      w.succeeds (hist ++ t) f = false ∧
      picks = pre ++ c :: post ∧
      ((t.filterMap Op.patchStep = specPatchSteps pre ∧
          f.patchStep = some (false, c.ID)) ∨
       (t.filterMap Op.patchStep = specPatchSteps pre ++ [(false, c.ID)] ∧
          f.patchStep = some (true, c.ID))) := by
  induction picks generalizing hist m a s with
  | nil =>
    unfold pickLoop at h
    exact LoopResult.noConfusion h
  | cons commit rest ih =>
    unfold pickLoop at h
    dsimp only at h
    cases hf : w.succeeds hist (getPatchFile commit.SourceRepository commit.ID) with
    | false =>
      rw [hf] at h
      simp only [Bool.false_eq_true, if_false] at h
      injection h with h1
      refine ⟨[], getPatchFile commit.SourceRepository commit.ID, [], commit, rest,
        by rw [← h1, List.append_nil], trivial,
        fun o ho => absurd ho (List.not_mem_nil o), rfl, rfl,
        by rw [List.append_nil]; exact hf, rfl, Or.inl ⟨rfl, rfl⟩⟩
    | true =>
      rw [hf, if_pos rfl] at h
      cases ha : applyPatch commit w.repoDir
          (w.patchFile commit.SourceRepository commit.ID) with
      | none =>
        rw [ha] at h
        exact LoopResult.noConfusion h
      | some am =>
        rw [ha] at h
        dsimp only at h
        obtain ⟨ham1, ham2, ham3, -⟩ := applyPatch_some _ _ _ _ ha
        cases hs2 : w.succeeds
            (hist ++ [getPatchFile commit.SourceRepository commit.ID]) am with
        | false =>
          rw [hs2] at h
          simp only [Bool.false_eq_true, if_false] at h
          injection h with h1
          refine ⟨[getPatchFile commit.SourceRepository commit.ID], am, [], commit, rest,
            by rw [← h1]; simp, ⟨hf, trivial⟩, ?_, ham1, ham2, hs2, rfl,
            Or.inr ⟨?_, ham3⟩⟩
          · intro o ho
            rw [List.mem_singleton] at ho
            subst ho
            exact ⟨rfl, rfl⟩
          · rw [List.filterMap_cons, (getPatchFile_facts _ _).2.2]
            rfl
        | true =>
          rw [hs2, if_pos rfl] at h
          obtain ⟨t, f, pre, c, post, h1, h2, h3, h4, h4', h5, h6, h7⟩ := ih _ _ _ _ h
          refine ⟨getPatchFile commit.SourceRepository commit.ID :: am :: t, f,
            commit :: pre, c, post, ?_, ⟨hf, hs2, ?_⟩, ?_, h4, h4', ?_, ?_, ?_⟩
          · rw [h1]; simp
          · have : hist ++ [getPatchFile commit.SourceRepository commit.ID] ++ [am] =
                hist ++ [getPatchFile commit.SourceRepository commit.ID, am] := by simp
            rw [this]; exact h2
          · intro o ho
            rcases List.mem_cons.mp ho with rfl | ho
            · exact ⟨rfl, rfl⟩
            · rcases List.mem_cons.mp ho with rfl | ho
              · exact ⟨ham1, ham2⟩
              · exact h3 o ho
          · rw [← h5]; simp
          · rw [h6]; rfl
          · have hstep : ∀ l : List Op,
                (getPatchFile commit.SourceRepository commit.ID :: am :: l).filterMap
                  Op.patchStep =
                (false, commit.ID) :: (true, commit.ID) :: l.filterMap Op.patchStep := by
              intro l
              rw [List.filterMap_cons, (getPatchFile_facts _ _).2.2]
              dsimp only
              rw [List.filterMap_cons, ham3]
            rw [hstep, specPatchSteps_cons]
            rcases h7 with ⟨h7, h8⟩ | ⟨h7, h8⟩
            · exact Or.inl ⟨by rw [h7], h8⟩
            · exact Or.inr ⟨by rw [h7]; rfl, h8⟩

theorem pickLoop_panic (w : World) (picks : List PickCommit) (hist : List Op)
    (m a : List Str) (s : Str) (h' : List Op)
    (h : pickLoop w picks hist m a s = .panic h') :
    ∃ t, h' = hist ++ t ∧ AllOk w hist t ∧
      (∀ o ∈ t, o.isPatch = true ∧ o.isPublish = false) ∧
      ∃ c ∈ picks, c.Mapping = none := by
  induction picks generalizing hist m a s with
  | nil =>
    unfold pickLoop at h
    exact LoopResult.noConfusion h
  | cons commit rest ih =>
    unfold pickLoop at h
    dsimp only at h
    cases hf : w.succeeds hist (getPatchFile commit.SourceRepository commit.ID) with
    | false =>
      rw [hf] at h
      simp only [Bool.false_eq_true, if_false] at h
      exact LoopResult.noConfusion h
    | true =>
      rw [hf, if_pos rfl] at h
      cases ha : applyPatch commit w.repoDir
          (w.patchFile commit.SourceRepository commit.ID) with
      | none =>
        rw [ha] at h
        injection h with h1
        refine ⟨[getPatchFile commit.SourceRepository commit.ID], h1.symm,
          ⟨hf, trivial⟩, ?_, commit, List.mem_cons_self _ _, applyPatch_none _ _ _ ha⟩
        intro o ho
        rw [List.mem_singleton] at ho
        subst ho
        exact ⟨rfl, rfl⟩
      | some am =>
        rw [ha] at h
        dsimp only at h
        obtain ⟨ham1, ham2, ham3, -⟩ := applyPatch_some _ _ _ _ ha
        cases hs2 : w.succeeds
            (hist ++ [getPatchFile commit.SourceRepository commit.ID]) am with
        | false =>
          rw [hs2] at h
          simp only [Bool.false_eq_true, if_false] at h
          exact LoopResult.noConfusion h
        | true =>
          rw [hs2, if_pos rfl] at h
          obtain ⟨t, h1, h2, h3, c, hc, hcm⟩ := ih _ _ _ _ h
          refine ⟨getPatchFile commit.SourceRepository commit.ID :: am :: t,
            ?_, ⟨hf, hs2, ?_⟩, ?_, c, List.mem_cons_of_mem _ hc, hcm⟩
          · rw [h1]; simp
          · have : hist ++ [getPatchFile commit.SourceRepository commit.ID] ++ [am] =
                hist ++ [getPatchFile commit.SourceRepository commit.ID, am] := by simp
            rw [this]; exact h2
          · intro o ho
            rcases List.mem_cons.mp ho with rfl | ho
            · exact ⟨rfl, rfl⟩
            · rcases List.mem_cons.mp ho with rfl | ho
              · exact ⟨ham1, ham2⟩
              · exact h3 o ho

theorem setupOps_facts (forkRepo forkBranch ref : Str) :
    ∀ o ∈ setupOps forkRepo forkBranch ref,
      o.isPatch = false ∧ o.isPublish = false ∧ o.patchStep = none := by
  intro o ho
  unfold setupOps at ho
  simp only [List.mem_cons, List.mem_singleton, List.not_mem_nil, or_false] at ho
  rcases ho with rfl | rfl | rfl | rfl | rfl <;> exact ⟨rfl, rfl, rfl⟩

theorem allOk_mem_prefix (l pre : List Op) (f : Op) (post : List Op)
    (h : l = pre ++ f :: post) (P : Op → Prop) (hP : ∀ o ∈ l, P o) :
    (∀ o ∈ pre, P o) ∧ P f := by
  subst h
  exact ⟨fun o ho => hP o (List.mem_append_left _ ho),
    hP f (List.mem_append_right _ (List.mem_cons_self _ _))⟩

/-- The runs of `handlePicksForRepo`: the operations `Q` that succeeded,
followed by the last operations `R`; the run stops on a panic or on the failure
of an operation that is not a patch step, or on the failure of a patch step, or
goes on to push the working branch. -/
theorem handlePicksForRepo_shape (s : Server) (w : World) (ref key : Str)
    (picks : List PickCommit) :
    ∃ Q R, (handlePicksForRepo s w ref key picks).trace = Q ++ R ∧ AllOk w [] Q ∧
      (∀ o ∈ Q, o.isPublish = false) ∧
      (((∀ o ∈ R, o.isPatch = false ∧ o.isPublish = false) ∧
          ((split '#' key).length < 2 ∨ (∃ f ∈ R, w.succeeds Q f = false) ∨
            (∃ c ∈ picks, c.Mapping = none) ∨
            ∃ forkRepo forkBranch rest, split '#' key = forkRepo :: forkBranch :: rest ∧
              (split '/' forkRepo).length < 2)) ∨
        (∃ forkRepo forkBranch rest t f pre c post,
          split '#' key = forkRepo :: forkBranch :: rest ∧
          Q = setupOps forkRepo forkBranch ref ++ t ∧
          (∀ o ∈ t, o.isPatch = true) ∧
          R = [f, Op.clean] ∧ f.isPatch = true ∧ f.isPublish = false ∧
          w.succeeds Q f = false ∧ picks = pre ++ c :: post ∧
          ((t.filterMap Op.patchStep = specPatchSteps pre ∧
              f.patchStep = some (false, c.ID)) ∨
           (t.filterMap Op.patchStep = specPatchSteps pre ++ [(false, c.ID)] ∧
              f.patchStep = some (true, c.ID)))) ∨
        (∃ forkRepo forkBranch rest org repo rest' t body,
          split '#' key = forkRepo :: forkBranch :: rest ∧
          split '/' forkRepo = org :: repo :: rest' ∧
          Q = setupOps forkRepo forkBranch ref ++ t ∧
          (∀ o ∈ t, o.isPatch = true) ∧
          t.filterMap Op.patchStep = specPatchSteps picks ∧
          (∀ c ∈ picks, c.Mapping ≠ none) ∧
          (handlePicksForRepo s w ref key picks).panicked = false ∧
          ((w.succeeds Q (Op.push repo (workingBranch forkBranch ref)) = false ∧
              R = [Op.push repo (workingBranch forkBranch ref), Op.clean]) ∨
           (w.succeeds Q (Op.push repo (workingBranch forkBranch ref)) = true ∧
              R = [Op.push repo (workingBranch forkBranch ref),
                   Op.createPullRequest org repo
                     (prTitle ref (picks.map PickCommit.Message)) body
                     (s.botName ++ ":".toList ++ workingBranch forkBranch ref)
                     forkBranch true,
                   Op.clean])))) := by
  unfold handlePicksForRepo
  cases hsp : split '#' key with
  | nil => exact absurd hsp (split_ne_nil _ _)
  | cons forkRepo l1 =>
    cases l1 with
    | nil =>
      refine ⟨[], [], rfl, trivial, fun o ho => absurd ho (List.not_mem_nil o),
        Or.inl ⟨fun o ho => absurd ho (List.not_mem_nil o), Or.inl (by simp)⟩⟩
    | cons forkBranch rest =>
      dsimp only
      cases hclone : w.succeeds [] (Op.clone forkRepo) with
      | false =>
        simp only [Bool.false_eq_true, if_false]
        refine ⟨[], [Op.clone forkRepo], rfl, trivial,
          fun o ho => absurd ho (List.not_mem_nil o), Or.inl ⟨?_, Or.inr (Or.inl ?_)⟩⟩
        · intro o ho
          rw [List.mem_singleton] at ho
          subst ho
          exact ⟨rfl, rfl⟩
        · exact ⟨_, List.mem_singleton_self _, hclone⟩
      | true =>
        rw [if_pos rfl]
        cases hrun : runOps w [Op.clone forkRepo]
            [Op.config "user.name".toList "vendorpicker".toList,
             Op.config "user.email".toList "vendorpicker@localhost".toList,
             Op.checkout forkBranch,
             Op.checkoutNewBranch (workingBranch forkBranch ref)] with
        | mk hist b =>
          cases b with
          | false =>
            dsimp only
            obtain ⟨pre, f, post, h1, h2, h3, h4⟩ := runOps_false _ _ _ _ hrun
            have hfacts := allOk_mem_prefix _ pre f post h1
              (fun o => o.isPatch = false ∧ o.isPublish = false) (by
                intro o ho
                have := setupOps_facts forkRepo forkBranch ref o
                  (List.mem_cons_of_mem _ ho)
                exact ⟨this.1, this.2.1⟩)
            refine ⟨Op.clone forkRepo :: pre, [f, Op.clean], ?_, ⟨hclone, h3⟩, ?_,
              Or.inl ⟨?_, Or.inr (Or.inl ⟨f, List.mem_cons_self _ _, h4⟩)⟩⟩
            · rw [h2]; simp
            · intro o ho
              rcases List.mem_cons.mp ho with rfl | ho
              · rfl
              · exact (hfacts.1 o ho).2
            · intro o ho
              rcases List.mem_cons.mp ho with rfl | ho
              · exact hfacts.2
              · rw [List.mem_singleton] at ho
                subst ho
                exact ⟨rfl, rfl⟩
          | true =>
            dsimp only
            obtain ⟨h1, h2⟩ := runOps_true _ _ _ _ hrun
            have hsetup : hist = setupOps forkRepo forkBranch ref := h1
            have hokSetup : AllOk w [] (setupOps forkRepo forkBranch ref) := ⟨hclone, h2⟩
            cases hloop : pickLoop w picks hist [] [] [] with
            | failed hist' =>
              dsimp only
              obtain ⟨t, f, pre, c, post, g1, g2, g3, g4, g4', g5, g6, g7⟩ :=
                pickLoop_failed _ _ _ _ _ _ _ hloop
              rw [hsetup] at g1 g2 g5
              refine ⟨setupOps forkRepo forkBranch ref ++ t, [f, Op.clean], ?_,
                (allOk_append _ _ _ _).mpr ⟨hokSetup, g2⟩, ?_,
                Or.inr (Or.inl ⟨forkRepo, forkBranch, rest, t, f, pre, c, post, rfl, rfl,
                  fun o ho => (g3 o ho).1, rfl, g4, g4', g5, g6, g7⟩)⟩
              · rw [g1]; simp
              · intro o ho
                rcases List.mem_append.mp ho with ho | ho
                · exact (setupOps_facts _ _ _ o ho).2.1
                · exact (g3 o ho).2
            | panic hist' =>
              dsimp only
              obtain ⟨t, g1, g2, g3, g4⟩ := pickLoop_panic _ _ _ _ _ _ _ hloop
              rw [hsetup] at g1 g2
              refine ⟨setupOps forkRepo forkBranch ref ++ t, [Op.clean], ?_,
                (allOk_append _ _ _ _).mpr ⟨hokSetup, g2⟩, ?_,
                Or.inl ⟨?_, Or.inr (Or.inr (Or.inl g4))⟩⟩
              · rw [g1]
              · intro o ho
                rcases List.mem_append.mp ho with ho | ho
                · exact (setupOps_facts _ _ _ o ho).2.1
                · exact (g3 o ho).2
              · intro o ho
                rw [List.mem_singleton] at ho
                subst ho
                exact ⟨rfl, rfl⟩
            | done hist' messages authors sourceRepo =>
              dsimp only
              obtain ⟨t, g1, g2, g3, g4, g5, g6, g7⟩ :=
                pickLoop_done _ _ _ _ _ _ _ _ _ _ hloop
              rw [hsetup] at g1 g2
              rw [List.nil_append] at g5
              have hokQ : AllOk w [] (setupOps forkRepo forkBranch ref ++ t) :=
                (allOk_append _ _ _ _).mpr ⟨hokSetup, g2⟩
              have hpubQ : ∀ o ∈ setupOps forkRepo forkBranch ref ++ t,
                  o.isPublish = false := by
                intro o ho
                rcases List.mem_append.mp ho with ho | ho
                · exact (setupOps_facts _ _ _ o ho).2.1
                · exact (g3 o ho).2
              cases hrp : split '/' forkRepo with
              | nil => exact absurd hrp (split_ne_nil _ _)
              | cons org l2 =>
                cases l2 with
                | nil =>
                  dsimp only
                  refine ⟨setupOps forkRepo forkBranch ref ++ t, [Op.clean], ?_, hokQ, hpubQ,
                    Or.inl ⟨?_, Or.inr (Or.inr (Or.inr
                      ⟨forkRepo, forkBranch, rest, rfl, by rw [hrp]; simp⟩))⟩⟩
                  · rw [g1]
                  · intro o ho
                    rw [List.mem_singleton] at ho
                    subst ho
                    exact ⟨rfl, rfl⟩
                | cons repo rest' =>
                  dsimp only
                  rw [g1]
                  cases hpush : w.succeeds (setupOps forkRepo forkBranch ref ++ t)
                      (Op.push repo (workingBranch forkBranch ref)) with
                  | false =>
                    simp only [Bool.false_eq_true, if_false]
                    exact ⟨setupOps forkRepo forkBranch ref ++ t, _, rfl, hokQ, hpubQ,
                      Or.inr (Or.inr ⟨forkRepo, forkBranch, rest, org, repo, rest', t, [],
                        rfl, hrp, rfl, fun o ho => (g3 o ho).1, g4, g7, trivial,
                        Or.inl ⟨hpush, rfl⟩⟩)⟩
                  | true =>
                    rw [if_pos rfl]
                    exact ⟨setupOps forkRepo forkBranch ref ++ t, _, rfl, hokQ, hpubQ,
                      Or.inr (Or.inr ⟨forkRepo, forkBranch, rest, org, repo, rest', t,
                        prBody sourceRepo authors,
                        rfl, hrp, rfl, fun o ho => (g3 o ho).1, g4, g7, rfl,
                        Or.inr ⟨hpush, by rw [g5]⟩⟩)⟩

theorem patchStep_none_of_not_isPatch (o : Op) (h : o.isPatch = false) :
    o.patchStep = none := by
  cases o <;> first | rfl | exact Bool.noConfusion h

theorem filterMap_patchStep_setupOps (forkRepo forkBranch ref : Str) :
    (setupOps forkRepo forkBranch ref).filterMap Op.patchStep = [] := rfl

/-! ## Group-level abort -/

/-- C13: in a run of `handlePicksForRepo` in which the fetch or the application
of a patch fails, the failing operation is the last one before the deferred
clean-up, no branch is pushed and no pull request is created, and the patch
steps of the run are those of the picks before the failing one, each fetched
then applied, in group order, followed by the fetch of the failing pick and, if
that is what failed, its application: no patch of a later pick is fetched or
applied. -/
theorem handlePicksForRepo_patch_failure (s : Server) (w : World) (ref key : Str)
    (picks : List PickCommit) (hist : List Op) (op : Op) (tail : List Op)
    (htrace : (handlePicksForRepo s w ref key picks).trace = hist ++ op :: tail)
    (hop : op.isPatch = true) (hfail : w.succeeds hist op = false) :
    tail = [Op.clean] ∧
    (∀ o ∈ (handlePicksForRepo s w ref key picks).trace, o.isPublish = false) ∧
    ∃ pre c post, picks = pre ++ c :: post ∧
      ((op.patchStep = some (false, c.ID) ∧
          (handlePicksForRepo s w ref key picks).trace.filterMap Op.patchStep =
            specPatchSteps pre ++ [(false, c.ID)]) ∨
       (op.patchStep = some (true, c.ID) ∧
          (handlePicksForRepo s w ref key picks).trace.filterMap Op.patchStep =
            specPatchSteps pre ++ [(false, c.ID), (true, c.ID)])) := by
  obtain ⟨Q, R, hQR, hok, hpub, hcases⟩ := handlePicksForRepo_shape s w ref key picks
  obtain ⟨pre', hhist, hR⟩ := allOk_position w Q R hist tail op hok (hQR.symm.trans htrace) hfail
  have hopR : op ∈ R := by
    rw [hR]; exact List.mem_append_right _ (List.mem_cons_self _ _)
  rcases hcases with ⟨hnp, -⟩ | ⟨forkRepo, forkBranch, rest, t, f, pre, c, post, -, hQ, -,
      hRf, hf1, hf2, hf3, hpicks, hsteps⟩ |
    ⟨forkRepo, forkBranch, rest, org, repo, rest', t, body, -, -, -, -, -, -, -, hR'⟩
  · rw [(hnp op hopR).1] at hop
    exact Bool.noConfusion hop
  · have hpos : pre' = [] ∧ op = f ∧ tail = [Op.clean] := by
      rw [hRf] at hR
      cases pre' with
      | nil =>
        rw [List.nil_append] at hR
        injection hR with h1 h2
        exact ⟨rfl, h1.symm, h2.symm⟩
      | cons x xs =>
        rw [List.cons_append] at hR
        injection hR with h1 h2
        cases xs with
        | nil =>
          rw [List.nil_append] at h2
          injection h2 with h3 h4
          rw [← h3] at hop
          exact Bool.noConfusion hop
        | cons y ys =>
          rw [List.cons_append] at h2
          injection h2 with h3 h4
          cases ys with
          | nil => exact List.noConfusion h4
          | cons z zs => exact List.noConfusion h4
    obtain ⟨-, hopf, htail⟩ := hpos
    subst hopf
    refine ⟨htail, ?_, pre, c, post, hpicks, ?_⟩
    · intro o ho
      rw [hQR, hRf] at ho
      rcases List.mem_append.mp ho with ho | ho
      · exact hpub o ho
      · rcases List.mem_cons.mp ho with rfl | ho
        · exact hf2
        · rw [List.mem_singleton] at ho
          subst ho
          rfl
    · have hfm : ∀ x, op.patchStep = some x →
          (handlePicksForRepo s w ref key picks).trace.filterMap Op.patchStep =
            t.filterMap Op.patchStep ++ [x] := by
        intro x hx
        rw [hQR, hQ, hRf, List.filterMap_append, List.filterMap_append,
          filterMap_patchStep_setupOps, List.nil_append, List.filterMap_cons, hx]
        rfl
      rcases hsteps with ⟨h1, h2⟩ | ⟨h1, h2⟩
      · exact Or.inl ⟨h2, by rw [hfm _ h2, h1]⟩
      · exact Or.inr ⟨h2, by rw [hfm _ h2, h1, List.append_assoc]; rfl⟩
  · have hnp : ∀ o ∈ R, o.isPatch = false := by
      intro o ho
      rcases hR' with ⟨-, hR'⟩ | ⟨-, hR'⟩
      · rw [hR'] at ho
        simp only [List.mem_cons, List.mem_singleton, List.not_mem_nil, or_false] at ho
        rcases ho with rfl | rfl <;> rfl
      · rw [hR'] at ho
        simp only [List.mem_cons, List.mem_singleton, List.not_mem_nil, or_false] at ho
        rcases ho with rfl | rfl | rfl <;> rfl
    rw [hnp op hopR] at hop
    exact Bool.noConfusion hop

/-- Witness of C13: three picks, the application of the patch of the second
fails; nothing is pushed and no pull request is created. -/
theorem handlePicksForRepo_patch_failure_witness :
    (handlePicksForRepo ⟨"bot".toList⟩
      ⟨fun _ o => o.patchStep != some (true, "2222222bbb".toList), "/tmp/clone".toList,
        fun _ id => id ++ ".patch".toList⟩
      "1111111".toList "org/fork#master".toList
      [⟨"1111111aaa".toList, "https://github.com/org/src".toList,
          some ⟨"org/fork".toList, "master".toList, "vendor/x".toList⟩,
          "bob".toList, "UPSTREAM: x: first".toList⟩,
       ⟨"2222222bbb".toList, "https://github.com/org/src".toList,
          some ⟨"org/fork".toList, "master".toList, "vendor/x".toList⟩,
          "bob".toList, "UPSTREAM: x: second".toList⟩,
       ⟨"3333333ccc".toList, "https://github.com/org/src".toList,
          some ⟨"org/fork".toList, "master".toList, "vendor/x".toList⟩,
          "bob".toList, "UPSTREAM: x: third".toList⟩]).trace.all
      (fun o => !o.isPublish) = true :=
  List.all_eq_true.mpr (fun o ho => by
    rw [(handlePicksForRepo_patch_failure ⟨"bot".toList⟩
      ⟨fun _ o => o.patchStep != some (true, "2222222bbb".toList), "/tmp/clone".toList,
        fun _ id => id ++ ".patch".toList⟩
      "1111111".toList "org/fork#master".toList _
      (setupOps "org/fork".toList "master".toList "1111111".toList ++
        [getPatchFile "https://github.com/org/src".toList "1111111aaa".toList,
         Op.applyPatch "1111111aaa".toList "/tmp/clone".toList
           ["am".toList, "-3".toList, "--ignore-whitespace".toList, "-p3".toList,
            "1111111aaa.patch".toList],
         getPatchFile "https://github.com/org/src".toList "2222222bbb".toList])
      (Op.applyPatch "2222222bbb".toList "/tmp/clone".toList
           ["am".toList, "-3".toList, "--ignore-whitespace".toList, "-p3".toList,
            "2222222bbb.patch".toList])
      [Op.clean] (by decide) (by decide) (by decide)).2.1 o ho]
    rfl)

/-! ## Pull request title, organisation and repository -/

theorem publish_mem_shape (Q R : List Op) (o : Op) (hpub : ∀ x ∈ Q, x.isPublish = false)
    (ho : o ∈ Q ++ R) (hop : o.isPublish = true) : o ∈ R := by
  rcases List.mem_append.mp ho with h | h
  · rw [hpub o h] at hop
    exact Bool.noConfusion hop
  · exact h

/-- The publishing operations of a run of `handlePicksForRepo`: there are some
only when every patch applied, and then they are the push of the working branch
to the second `/`-segment of the fork repository and, when the push succeeded,
the pull request in the organisation named by the first segment. -/
theorem handlePicksForRepo_publish (s : Server) (w : World) (ref key : Str)
    (picks : List PickCommit) (o : Op)
    (ho : o ∈ (handlePicksForRepo s w ref key picks).trace) (hop : o.isPublish = true) :
    ∃ forkRepo forkBranch rest org repo rest' body,
      split '#' key = forkRepo :: forkBranch :: rest ∧
      split '/' forkRepo = org :: repo :: rest' ∧
      (handlePicksForRepo s w ref key picks).trace.filterMap Op.patchStep =
        specPatchSteps picks ∧
      (o = Op.push repo (workingBranch forkBranch ref) ∨
       o = Op.createPullRequest org repo (prTitle ref (picks.map PickCommit.Message)) body
             (s.botName ++ ":".toList ++ workingBranch forkBranch ref) forkBranch true) := by
  obtain ⟨Q, R, hQR, hok, hpub, hcases⟩ := handlePicksForRepo_shape s w ref key picks
  rw [hQR] at ho
  have hoR := publish_mem_shape Q R o hpub ho hop
  rcases hcases with ⟨hnp, -⟩ | ⟨forkRepo, forkBranch, rest, t, f, pre, c, post, -, hQ, -,
      hRf, hf1, hf2, hf3, hpicks, hsteps⟩ |
    ⟨forkRepo, forkBranch, rest, org, repo, rest', t, body, hk, hr, hQ, -, hsteps, -, -, hR'⟩
  · rw [(hnp o hoR).2] at hop
    exact Bool.noConfusion hop
  · rw [hRf] at hoR
    rcases List.mem_cons.mp hoR with rfl | hoR
    · rw [hf2] at hop; exact Bool.noConfusion hop
    · rw [List.mem_singleton] at hoR
      subst hoR
      exact Bool.noConfusion hop
  · refine ⟨forkRepo, forkBranch, rest, org, repo, rest', body, hk, hr, ?_, ?_⟩
    · have hRnil : R.filterMap Op.patchStep = [] := by
        rcases hR' with ⟨-, hR'⟩ | ⟨-, hR'⟩ <;> rw [hR'] <;> rfl
      rw [hQR, hQ, List.filterMap_append, List.filterMap_append,
        filterMap_patchStep_setupOps, List.nil_append, hsteps, hRnil, List.append_nil]
    · rcases hR' with ⟨-, hR'⟩ | ⟨-, hR'⟩
      · rw [hR'] at hoR
        rcases List.mem_cons.mp hoR with rfl | hoR
        · exact Or.inl rfl
        · rw [List.mem_singleton] at hoR
          subst hoR
          exact Bool.noConfusion hop
      · rw [hR'] at hoR
        rcases List.mem_cons.mp hoR with rfl | hoR
        · exact Or.inl rfl
        · rcases List.mem_cons.mp hoR with rfl | hoR
          · exact Or.inr rfl
          · rw [List.mem_singleton] at hoR
            subst hoR
            exact Bool.noConfusion hop

/-- C14: the title of the pull request created by `handlePicksForRepo`, which
it creates only after every patch of the group applied, is `Automatic pick of `
followed by the message of the pick when the group has exactly one pick, and
`Automatic pick for ` followed by the short identifier when the group has more
than one; the messages the title is composed from, once the loop over the
picks has applied every patch, are the messages of the picks. -/
theorem handlePicksForRepo_title (s : Server) (w : World) (ref key : Str)
    (picks : List PickCommit) (org repo title body head base : Str) (canModify : Bool)
    (hpr : Op.createPullRequest org repo title body head base canModify ∈
      (handlePicksForRepo s w ref key picks).trace) :
    (handlePicksForRepo s w ref key picks).trace.filterMap Op.patchStep =
      specPatchSteps picks ∧
    (∀ c, picks = [c] → title = "Automatic pick of ".toList ++ c.Message) ∧
    (1 < picks.length →
      title = "Automatic pick for ".toList ++ ref ∧ ref <:+: title) ∧
    (∀ hist h' messages authors sourceRepo,
      pickLoop w picks hist [] [] [] = .done h' messages authors sourceRepo →
        messages = picks.map PickCommit.Message ∧
        (∀ c, picks = [c] →
          prTitle ref messages = "Automatic pick of ".toList ++ c.Message) ∧
        (1 < picks.length → prTitle ref messages = "Automatic pick for ".toList ++ ref)) := by
  have hone : ∀ c, picks = [c] →
      prTitle ref (picks.map PickCommit.Message) =
        "Automatic pick of ".toList ++ c.Message := by
    intro c hc
    rw [hc]
    rfl
  have hmany : 1 < picks.length →
      prTitle ref (picks.map PickCommit.Message) = "Automatic pick for ".toList ++ ref := by
    intro hlen
    cases picks with
    | nil => simp at hlen
    | cons a l =>
      cases l with
      | nil => simp at hlen
      | cons b l' => rfl
  obtain ⟨forkRepo, forkBranch, rest, org', repo', rest', body', -, -, hsteps, ho⟩ :=
    handlePicksForRepo_publish s w ref key picks _ hpr rfl
  have htitle : title = prTitle ref (picks.map PickCommit.Message) := by
    rcases ho with ho | ho
    · exact Op.noConfusion ho
    · injection ho
  refine ⟨hsteps, ?_, ?_, ?_⟩
  · intro c hc
    rw [htitle, hone c hc]
  · intro hlen
    rw [htitle, hmany hlen]
    exact ⟨rfl, (List.suffix_append _ _).isInfix⟩
  · intro hist h' messages authors sourceRepo hloop
    obtain ⟨t, -, -, -, -, hm, -, -⟩ := pickLoop_done _ _ _ _ _ _ _ _ _ _ hloop
    rw [List.nil_append] at hm
    subst hm
    exact ⟨rfl, hone, hmany⟩

theorem split_length (sep : Char) (s : Str) :
    (split sep s).length = count sep s + 1 := by
  induction s with
  | nil => rfl
  | cons c cs ih =>
    unfold split count
    by_cases hc : c = sep
    · subst hc
      rw [if_pos rfl, List.length_cons, ih, List.count_cons_self]
      rfl
    · rw [if_neg hc]
      have hcount : List.count sep (c :: cs) = List.count sep cs := by
        rw [List.count_cons]
        have : (c == sep) = false := by simpa using hc
        rw [this]
        rfl
      rw [hcount]
      cases hsp : split sep cs with
      | nil => exact absurd hsp (split_ne_nil sep cs)
      | cons seg rest =>
        rw [hsp] at ih
        exact ih

theorem split_two_of_mem (sep : Char) (s : Str) (h : sep ∈ s) :
    ∃ a b rest, split sep s = a :: b :: rest := by
  have hlen := split_length sep s
  have hpos : 0 < count sep s := List.count_pos_iff.mpr h
  cases hsp : split sep s with
  | nil => exact absurd hsp (split_ne_nil sep s)
  | cons a l =>
    cases l with
    | nil =>
      rw [hsp] at hlen
      simp at hlen
      omega
    | cons b rest => exact ⟨a, b, rest, rfl⟩

theorem handlePicksForRepo_all_succeed (s : Server) (w : World) (ref key : Str)
    (picks : List PickCommit) (forkRepo forkBranch : Str) (rest : List Str)
    (org repo : Str) (rest' : List Str)
    (hall : ∀ h o, w.succeeds h o = true) (hmap : ∀ c ∈ picks, c.Mapping ≠ none)
    (hk : split '#' key = forkRepo :: forkBranch :: rest)
    (hr : split '/' forkRepo = org :: repo :: rest') :
    ∃ t body,
      (handlePicksForRepo s w ref key picks).trace =
        setupOps forkRepo forkBranch ref ++ t ++
          [Op.push repo (workingBranch forkBranch ref),
           Op.createPullRequest org repo (prTitle ref (picks.map PickCommit.Message)) body
             (s.botName ++ ":".toList ++ workingBranch forkBranch ref) forkBranch true,
           Op.clean] ∧
      t.filterMap Op.patchStep = specPatchSteps picks ∧
      (handlePicksForRepo s w ref key picks).panicked = false := by
  obtain ⟨Q, R, hQR, hok, hpub, hcases⟩ := handlePicksForRepo_shape s w ref key picks
  rcases hcases with ⟨-, h1 | ⟨f, -, h2⟩ | ⟨c, hc, h3⟩ | ⟨fr, fb, rs, h4, h5⟩⟩ |
      ⟨fr, fb, rs, t, f, pre, c, post, -, -, -, -, -, -, hf3, -, -⟩ |
    ⟨fr, fb, rs, org1, repo1, rs', t, body, hk1, hr1, hQ, -, hsteps, -, hpan, hR'⟩
  · rw [hk] at h1
    simp at h1
    omega
  · rw [hall] at h2
    exact Bool.noConfusion h2
  · exact absurd h3 (hmap c hc)
  · rw [hk] at h4
    injection h4 with h4 _
    subst h4
    rw [hr] at h5
    simp at h5
    omega
  · rw [hall] at hf3
    exact Bool.noConfusion hf3
  · rw [hk] at hk1
    injection hk1 with e1 e2
    injection e2 with e2 e3
    subst e1 e2
    rw [hr] at hr1
    injection hr1 with e4 e5
    injection e5 with e5 e6
    subst e4 e5
    rcases hR' with ⟨hp, -⟩ | ⟨-, hR'⟩
    · rw [hall] at hp
      exact Bool.noConfusion hp
    · exact ⟨t, body, by rw [hQR, hQ, hR'], hsteps, hpan⟩

/-- C20: when the fork repository of the destination key contains a `/`, it
has a first and a second `/`-segment, so `repoParts[0]` and `repoParts[1]` are
in bounds; every push of a run of `handlePicksForRepo` goes to the remote named
by the second segment, every pull request is created in the organisation named
by the first segment and the repository named by the second, whatever the later
segments are; and when every operation succeeds and every pick has a mapping
the run pushes, creates that pull request and does not panic. -/
theorem handlePicksForRepo_org_repo (s : Server) (w : World) (ref key : Str)
    (picks : List PickCommit) (forkRepo forkBranch : Str) (rest : List Str)
    (hk : split '#' key = forkRepo :: forkBranch :: rest) (hslash : '/' ∈ forkRepo) :
    ∃ org repo rest', split '/' forkRepo = org :: repo :: rest' ∧
      (∀ remote branch,
        Op.push remote branch ∈ (handlePicksForRepo s w ref key picks).trace →
          remote = repo) ∧
      (∀ o r title body head base canModify,
        Op.createPullRequest o r title body head base canModify ∈
          (handlePicksForRepo s w ref key picks).trace → o = org ∧ r = repo) ∧
      ((∀ h o, w.succeeds h o = true) → (∀ c ∈ picks, c.Mapping ≠ none) →
        (handlePicksForRepo s w ref key picks).panicked = false ∧
        ∃ t body,
          (handlePicksForRepo s w ref key picks).trace =
            setupOps forkRepo forkBranch ref ++ t ++
              [Op.push repo (workingBranch forkBranch ref),
               Op.createPullRequest org repo
                 (prTitle ref (picks.map PickCommit.Message)) body
                 (s.botName ++ ":".toList ++ workingBranch forkBranch ref) forkBranch true,
               Op.clean]) := by
  obtain ⟨org, repo, rest', hr⟩ := split_two_of_mem '/' forkRepo hslash
  have hsame : ∀ fr fb rs org1 repo1 rs',
      split '#' key = fr :: fb :: rs → split '/' fr = org1 :: repo1 :: rs' →
        org1 = org ∧ repo1 = repo := by
    intro fr fb rs org1 repo1 rs' h1 h2
    rw [hk] at h1
    injection h1 with e1 _
    subst e1
    rw [hr] at h2
    injection h2 with e2 e3
    injection e3 with e3 _
    exact ⟨e2.symm, e3.symm⟩
  refine ⟨org, repo, rest', hr, ?_, ?_, ?_⟩
  · intro remote branch hmem
    obtain ⟨fr, fb, rs, org1, repo1, rs', body, h1, h2, -, ho⟩ :=
      handlePicksForRepo_publish s w ref key picks _ hmem rfl
    rcases ho with ho | ho
    · injection ho with e1 _
      rw [e1]
      exact (hsame _ _ _ _ _ _ h1 h2).2
    · exact Op.noConfusion ho
  · intro o r title body head base canModify hmem
    obtain ⟨fr, fb, rs, org1, repo1, rs', body', h1, h2, -, ho⟩ :=
      handlePicksForRepo_publish s w ref key picks _ hmem rfl
    rcases ho with ho | ho
    · exact Op.noConfusion ho
    · injection ho with e1 e2
      rw [e1, e2]
      exact hsame _ _ _ _ _ _ h1 h2
  · intro hall hmap
    obtain ⟨t, body, h1, -, h3⟩ :=
      handlePicksForRepo_all_succeed s w ref key picks forkRepo forkBranch rest org repo
        rest' hall hmap hk hr
    exact ⟨h3, t, body, h1⟩

/-- Witness of C20: for the fork repository
`github.com/forkorg/containers-image` the branch is pushed to the remote
`forkorg` and the pull request is created in the organisation `github.com` and
the repository `forkorg`. -/
theorem handlePicksForRepo_org_repo_witness :
    (handlePicksForRepo ⟨"bot".toList⟩
      ⟨fun _ _ => true, "/tmp/clone".toList, fun _ id => id ++ ".patch".toList⟩
      "c4eefef".toList "github.com/forkorg/containers-image#release-1.0".toList
      [⟨"c4eefeff07841366bbca7c86e71929a3c5bf2d04".toList,
          "https://github.com/org/src".toList,
          some ⟨"github.com/forkorg/containers-image".toList, "release-1.0".toList,
            "vendor/github.com/containers/image".toList⟩,
          "bob".toList,
          "UPSTREAM: containers/image: 2384: Some commit message".toList⟩]).panicked = false ∧
    (handlePicksForRepo ⟨"bot".toList⟩
      ⟨fun _ _ => true, "/tmp/clone".toList, fun _ id => id ++ ".patch".toList⟩
      "c4eefef".toList "github.com/forkorg/containers-image#release-1.0".toList
      [⟨"c4eefeff07841366bbca7c86e71929a3c5bf2d04".toList,
          "https://github.com/org/src".toList,
          some ⟨"github.com/forkorg/containers-image".toList, "release-1.0".toList,
            "vendor/github.com/containers/image".toList⟩,
          "bob".toList,
          "UPSTREAM: containers/image: 2384: Some commit message".toList⟩]).trace.drop 7 =
    [Op.push "forkorg".toList "auto-pick-release-1.0-c4eefef".toList,
     Op.createPullRequest "github.com".toList "forkorg".toList
       "Automatic pick of UPSTREAM: containers/image: 2384: Some commit message".toList
       "This is automatic pick from https://github.com/org/src.\n/cc @bob".toList
       "bot:auto-pick-release-1.0-c4eefef".toList "release-1.0".toList true,
     Op.clean] := by
  obtain ⟨org, repo, rest', hr, -, -, hrun⟩ := handlePicksForRepo_org_repo ⟨"bot".toList⟩
    ⟨fun _ _ => true, "/tmp/clone".toList, fun _ id => id ++ ".patch".toList⟩
    "c4eefef".toList "github.com/forkorg/containers-image#release-1.0".toList
    [⟨"c4eefeff07841366bbca7c86e71929a3c5bf2d04".toList,
        "https://github.com/org/src".toList,
        some ⟨"github.com/forkorg/containers-image".toList, "release-1.0".toList,
          "vendor/github.com/containers/image".toList⟩,
        "bob".toList,
        "UPSTREAM: containers/image: 2384: Some commit message".toList⟩]
    "github.com/forkorg/containers-image".toList "release-1.0".toList [] (by decide)
    (by decide)
  exact ⟨(hrun (fun _ _ => rfl) (by decide)).1, by decide⟩

/-- Witness of C14: a group of one pick, every operation succeeds; the pull
request is created with the title `Automatic pick of ` + message. -/
theorem handlePicksForRepo_title_witness :
    "Automatic pick of UPSTREAM: containers/image: 2384: Some commit message".toList =
      "Automatic pick of ".toList ++
        "UPSTREAM: containers/image: 2384: Some commit message".toList :=
  (handlePicksForRepo_title ⟨"bot".toList⟩
    ⟨fun _ _ => true, "/tmp/clone".toList, fun _ id => id ++ ".patch".toList⟩
    "c4eefef".toList "github.com/forkorg/containers-image#release-1.0".toList
    [⟨"c4eefeff07841366bbca7c86e71929a3c5bf2d04".toList,
        "https://github.com/org/src".toList,
        some ⟨"github.com/forkorg/containers-image".toList, "release-1.0".toList,
          "vendor/github.com/containers/image".toList⟩,
        "bob".toList,
        "UPSTREAM: containers/image: 2384: Some commit message".toList⟩]
    "github.com".toList "forkorg".toList
    "Automatic pick of UPSTREAM: containers/image: 2384: Some commit message".toList
    "This is automatic pick from https://github.com/org/src.\n/cc @bob".toList
    "bot:auto-pick-release-1.0-c4eefef".toList "release-1.0".toList true
    (by decide)).2.1
    ⟨"c4eefeff07841366bbca7c86e71929a3c5bf2d04".toList,
        "https://github.com/org/src".toList,
        some ⟨"github.com/forkorg/containers-image".toList, "release-1.0".toList,
          "vendor/github.com/containers/image".toList⟩,
        "bob".toList,
        "UPSTREAM: containers/image: 2384: Some commit message".toList⟩ rfl

/-! ## The destination key -/

theorem runOps_of_allOk (w : World) (hist ops : List Op) (h : AllOk w hist ops) :
    runOps w hist ops = (hist ++ ops, true) := by
  induction ops generalizing hist with
  | nil =>
    unfold runOps
    rw [List.append_nil]
  | cons o os ih =>
    unfold runOps
    rw [h.1, if_pos rfl, ih _ h.2, List.append_assoc, List.singleton_append]

theorem handlePicksForRepo_starts (s : Server) (w : World) (ref key : Str)
    (picks : List PickCommit) (forkRepo forkBranch : Str) (rest : List Str)
    (hk : split '#' key = forkRepo :: forkBranch :: rest) :
    (∃ tl, (handlePicksForRepo s w ref key picks).trace = Op.clone forkRepo :: tl) ∧
    (AllOk w [] (setupOps forkRepo forkBranch ref) →
      ∃ tl, (handlePicksForRepo s w ref key picks).trace =
        setupOps forkRepo forkBranch ref ++ tl) := by
  unfold handlePicksForRepo
  rw [hk]
  dsimp only
  cases hclone : w.succeeds [] (Op.clone forkRepo) with
  | false =>
    simp only [Bool.false_eq_true, if_false]
    refine ⟨⟨[], rfl⟩, ?_⟩
    intro hok
    have := hok.1
    rw [hclone] at this
    exact Bool.noConfusion this
  | true =>
    rw [if_pos rfl]
    cases hrun : runOps w [Op.clone forkRepo]
        [Op.config "user.name".toList "vendorpicker".toList,
         Op.config "user.email".toList "vendorpicker@localhost".toList,
         Op.checkout forkBranch,
         Op.checkoutNewBranch (workingBranch forkBranch ref)] with
    | mk hist b =>
      cases b with
      | false =>
        dsimp only
        obtain ⟨pre, f, post, h1, h2, h3, h4⟩ := runOps_false _ _ _ _ hrun
        refine ⟨⟨pre ++ [f] ++ [Op.clean], by rw [h2]; simp⟩, ?_⟩
        intro hok
        have := runOps_of_allOk w [Op.clone forkRepo] _ hok.2
        rw [hrun] at this
        injection this with _ hb
        exact Bool.noConfusion hb
      | true =>
        dsimp only
        obtain ⟨h1, h2⟩ := runOps_true _ _ _ _ hrun
        have hsetup : hist = setupOps forkRepo forkBranch ref := h1
        have key : ∀ (hist' X : List Op), (∃ t, hist' = hist ++ t) →
            (∃ tl, hist' ++ X = Op.clone forkRepo :: tl) ∧
            (AllOk w [] (setupOps forkRepo forkBranch ref) →
              ∃ tl, hist' ++ X = setupOps forkRepo forkBranch ref ++ tl) := by
          rintro hist' X ⟨t, ht⟩
          rw [ht, hsetup]
          exact ⟨⟨_, rfl⟩, fun _ => ⟨t ++ X, by rw [List.append_assoc]⟩⟩
        cases hloop : pickLoop w picks hist [] [] [] with
        | failed hist' =>
          dsimp only
          obtain ⟨t, f, pre, c, post, g1, -⟩ := pickLoop_failed _ _ _ _ _ _ _ hloop
          exact key _ _ ⟨t ++ [f], by rw [g1, List.append_assoc]⟩
        | panic hist' =>
          dsimp only
          obtain ⟨t, g1, -⟩ := pickLoop_panic _ _ _ _ _ _ _ hloop
          exact key _ _ ⟨t, g1⟩
        | done hist' messages authors sourceRepo =>
          dsimp only
          obtain ⟨t, g1, -⟩ := pickLoop_done _ _ _ _ _ _ _ _ _ _ hloop
          cases hrp : split '/' forkRepo with
          | nil => exact absurd hrp (split_ne_nil _ _)
          | cons org l2 =>
            cases l2 with
            | nil =>
              dsimp only
              exact key _ _ ⟨t, g1⟩
            | cons repo rest' =>
              dsimp only
              cases hpush : w.succeeds hist' (Op.push repo (workingBranch forkBranch ref)) with
              | false =>
                simp only [Bool.false_eq_true, if_false]
                exact key _ _ ⟨t, g1⟩
              | true =>
                rw [if_pos rfl]
                exact key _ _ ⟨t, g1⟩

/-- C19: for a mapping whose ForkRepository and ForkDefaultBranch contain no
`#`, the key of `WithBranch` split on `#` is exactly the pair of the
ForkRepository and the ForkDefaultBranch; `handlePicksForRepo` called with that
key does not panic on `parts[1]`: it starts by cloning the ForkRepository, and
when the preparation succeeds it checks out the ForkDefaultBranch; and two such
mappings with the same key have the same ForkRepository and the same
ForkDefaultBranch. -/
theorem withBranch_split (c : PickCommit) (m : ForkMapping)
    (hm : c.Mapping = some m)
    (hrepo : '#' ∉ m.ForkRepository) (hbranch : '#' ∉ m.ForkDefaultBranch) :
    c.WithBranch = some (m.ForkRepository ++ ['#'] ++ m.ForkDefaultBranch) ∧
    split '#' (m.ForkRepository ++ ['#'] ++ m.ForkDefaultBranch) =
      [m.ForkRepository, m.ForkDefaultBranch] ∧
    (∀ (s : Server) (w : World) (ref : Str) (picks : List PickCommit),
      (∃ tl, (handlePicksForRepo s w ref
          (m.ForkRepository ++ ['#'] ++ m.ForkDefaultBranch) picks).trace =
        Op.clone m.ForkRepository :: tl) ∧
      (AllOk w [] (setupOps m.ForkRepository m.ForkDefaultBranch ref) →
        ∃ tl, (handlePicksForRepo s w ref
            (m.ForkRepository ++ ['#'] ++ m.ForkDefaultBranch) picks).trace =
          [Op.clone m.ForkRepository,
           Op.config "user.name".toList "vendorpicker".toList,
           Op.config "user.email".toList "vendorpicker@localhost".toList,
           Op.checkout m.ForkDefaultBranch,
           Op.checkoutNewBranch
             ("auto-pick-".toList ++ m.ForkDefaultBranch ++ "-".toList ++ ref)] ++ tl)) ∧
    (∀ m' : ForkMapping, '#' ∉ m'.ForkRepository → '#' ∉ m'.ForkDefaultBranch →
      m.ForkRepository ++ ['#'] ++ m.ForkDefaultBranch =
        m'.ForkRepository ++ ['#'] ++ m'.ForkDefaultBranch →
      m.ForkRepository = m'.ForkRepository ∧
        m.ForkDefaultBranch = m'.ForkDefaultBranch) := by
  have hsplit : ∀ m0 : ForkMapping, '#' ∉ m0.ForkRepository → '#' ∉ m0.ForkDefaultBranch →
      split '#' (m0.ForkRepository ++ ['#'] ++ m0.ForkDefaultBranch) =
        [m0.ForkRepository, m0.ForkDefaultBranch] := by
    intro m0 h1 h2
    rw [List.append_assoc, List.singleton_append, split_append_sep '#' _ _ h1,
      split_of_not_mem '#' _ h2]
  refine ⟨?_, hsplit m hrepo hbranch, ?_, ?_⟩
  · simp [PickCommit.WithBranch, PickCommit.ForkRepository, hm]
  · intro s w ref picks
    exact handlePicksForRepo_starts s w ref _ picks _ _ [] (hsplit m hrepo hbranch)
  · intro m' h1 h2 heq
    have e := hsplit m hrepo hbranch
    rw [heq, hsplit m' h1 h2] at e
    injection e with e1 e2
    injection e2 with e2 _
    exact ⟨e1.symm, e2.symm⟩

/-- Witness of C19: the mapping of the repository's own test. -/
theorem withBranch_split_witness :
    split '#' ("github.com/forkorg/containers-image".toList ++ ['#'] ++
        "release-1.0".toList) =
      ["github.com/forkorg/containers-image".toList, "release-1.0".toList] :=
  (withBranch_split
    ⟨"c4eefeff07841366bbca7c86e71929a3c5bf2d04".toList, [],
      some ⟨"github.com/forkorg/containers-image".toList, "release-1.0".toList,
        "vendor/github.com/containers/image".toList⟩, [],
      "UPSTREAM: containers/image: 2384: Some commit message".toList⟩
    ⟨"github.com/forkorg/containers-image".toList, "release-1.0".toList,
      "vendor/github.com/containers/image".toList⟩ rfl (by decide) (by decide)).2.1

end VendorSyncer

/-! ## Owners of a path -/

namespace Features

open VendorSyncer

theorem join_cons_append (sep a : Str) (rest : List Str) :
    ∃ tl, join sep (a :: rest) = a ++ tl := by
  cases rest with
  | nil => exact ⟨[], by rw [List.append_nil]; rfl⟩
  | cons b rest' => exact ⟨sep ++ join sep (b :: rest'), by rw [join_cons_cons, List.append_assoc]⟩

theorem join_snoc (sep : Str) (init : List Str) (last : Str) (h : init ≠ []) :
    join sep (init ++ [last]) = join sep init ++ sep ++ last := by
  induction init with
  | nil => exact absurd rfl h
  | cons a rest ih =>
    cases rest with
    | nil =>
      show join sep [a, last] = join sep [a] ++ sep ++ last
      rw [join_pair]
      rfl
    | cons b rest' =>
      have ih' := ih (List.cons_ne_nil _ _)
      rw [List.cons_append, List.cons_append, join_cons_cons, ← List.cons_append, ih',
        join_cons_cons]
      simp only [List.append_assoc]

theorem split_join_append (sep : Char) (segs : List Str) (rel : Str) (hne : segs ≠ [])
    (h : ∀ seg ∈ segs, sep ∉ seg) :
    split sep (join [sep] segs ++ sep :: rel) = segs ++ split sep rel := by
  induction segs with
  | nil => exact absurd rfl hne
  | cons a rest ih =>
    cases rest with
    | nil =>
      show split sep (a ++ sep :: rel) = [a] ++ split sep rel
      rw [split_append_sep sep a _ (h a (List.mem_cons_self _ _))]
      rfl
    | cons b rest' =>
      rw [join_cons_cons, List.append_assoc, List.append_assoc, List.singleton_append,
        split_append_sep sep a _ (h a (List.mem_cons_self _ _)),
        ih (List.cons_ne_nil _ _) (fun seg hs => h seg (List.mem_cons_of_mem _ hs))]
      rfl

theorem dropWhile_not_sep (l rest : Str) (h : '/' ∉ l) :
    (l ++ '/' :: rest).dropWhile (fun c => c != '/') = '/' :: rest := by
  induction l with
  | nil => rfl
  | cons c cs ih =>
    have hc : ¬ c = '/' := fun e => h (e ▸ List.mem_cons_self _ _)
    have hcs : '/' ∉ cs := fun e => h (List.mem_cons_of_mem _ e)
    rw [List.cons_append, List.dropWhile_cons]
    have : (c != '/') = true := by simpa using hc
    rw [this, if_pos rfl, ih hcs]

theorem dropWhile_not_sep_all (l : Str) (h : '/' ∉ l) :
    l.dropWhile (fun c => c != '/') = [] := by
  induction l with
  | nil => rfl
  | cons c cs ih =>
    have hc : ¬ c = '/' := fun e => h (e ▸ List.mem_cons_self _ _)
    have hcs : '/' ∉ cs := fun e => h (List.mem_cons_of_mem _ e)
    rw [List.dropWhile_cons]
    have : (c != '/') = true := by simpa using hc
    rw [this, if_pos rfl, ih hcs]

theorem foldl_cleanStep_normal (segs : List Str) (stack : List Str)
    (h : ∀ seg ∈ segs, NormalSegment seg) :
    segs.foldl (cleanStep false) stack = segs.reverse ++ stack := by
  induction segs generalizing stack with
  | nil => rfl
  | cons a rest ih =>
    obtain ⟨h1, -, h3, h4⟩ := h a (List.mem_cons_self _ _)
    have hstep : cleanStep false stack a = a :: stack := by
      unfold cleanStep
      rw [if_neg (by rintro (e | e); exact h1 e; exact h3 e), if_neg h4]
    rw [List.foldl_cons, hstep, ih _ (fun seg hs => h seg (List.mem_cons_of_mem _ hs))]
    simp

theorem join_head_normal (a : Str) (rest : List Str) (h : NormalSegment a) :
    ∃ c tl, join ['/'] (a :: rest) = c :: tl ∧ c ≠ '/' := by
  obtain ⟨tl, htl⟩ := join_cons_append ['/'] a rest
  obtain ⟨h1, h2, -, -⟩ := h
  cases a with
  | nil => exact absurd rfl h1
  | cons c cs =>
    refine ⟨c, cs ++ tl, by rw [htl]; rfl, ?_⟩
    intro e
    exact h2 (e ▸ List.mem_cons_self _ _)

theorem clean_nil : clean [] = ['.'] := by decide

theorem clean_join_slash (segs : List Str) (hne : segs ≠ [])
    (h : ∀ seg ∈ segs, NormalSegment seg) :
    clean (join ['/'] segs ++ ['/']) = join ['/'] segs := by
  cases segs with
  | nil => exact absurd rfl hne
  | cons a rest =>
    obtain ⟨c, tl, hj, hc⟩ := join_head_normal a rest (h a (List.mem_cons_self _ _))
    have hsplit : split '/' (join ['/'] (a :: rest) ++ ['/']) = (a :: rest) ++ [[]] :=
      split_join_append '/' (a :: rest) [] hne (fun seg hs => (h seg hs).2.1)
    have hrooted : ((join ['/'] (a :: rest) ++ ['/']).head? == some '/') = false := by
      rw [hj, List.cons_append, List.head?_cons]
      simpa using hc
    unfold clean
    simp only [hrooted, hsplit, List.foldl_append, foldl_cleanStep_normal _ _ h]
    have hlast : List.foldl (cleanStep false) ((a :: rest).reverse ++ []) [[]] =
        (a :: rest).reverse ++ [] := by
      simp [cleanStep]
    rw [hlast, List.append_nil, List.reverse_reverse]
    simp only [Bool.false_eq_true, if_false, List.nil_append]
    rw [if_neg]
    rw [hj]
    exact List.cons_ne_nil _ _

theorem dir_join_snoc (init : List Str) (last : Str) (hne : init ≠ [])
    (h : ∀ seg ∈ init ++ [last], NormalSegment seg) :
    dir (join ['/'] (init ++ [last])) = join ['/'] init := by
  have hlast : '/' ∉ last.reverse := by
    rw [List.mem_reverse]
    exact (h last (List.mem_append_right _ (List.mem_singleton_self _))).2.1
  have hrev : (join ['/'] init ++ ['/'] ++ last).reverse =
      last.reverse ++ '/' :: (join ['/'] init).reverse := by
    simp
  unfold dir
  rw [join_snoc _ _ _ hne, hrev, dropWhile_not_sep _ _ hlast, List.reverse_cons,
    List.reverse_reverse]
  exact clean_join_slash init hne (fun seg hs => h seg (List.mem_append_left _ hs))

theorem dir_single (last : Str) (h : NormalSegment last) : dir last = ['.'] := by
  have hlast : '/' ∉ last.reverse := by
    rw [List.mem_reverse]
    exact h.2.1
  unfold dir
  rw [dropWhile_not_sep_all _ hlast]
  exact clean_nil

theorem exists_snoc {α : Type} (l : List α) (h : l ≠ []) :
    ∃ init last, l = init ++ [last] :=
  ⟨l.dropLast, l.getLast h, (List.dropLast_append_getLast h).symm⟩

theorem join_snoc_last (init : List Str) (last : Str)
    (h : ∀ seg ∈ init ++ [last], NormalSegment seg) :
    ∃ Y z, join ['/'] (init ++ [last]) = Y ++ [z] ∧ z ≠ '/' ∧
      (init ≠ [] → '/' ∈ join ['/'] (init ++ [last])) := by
  obtain ⟨h1, h2, -, -⟩ := h last (List.mem_append_right _ (List.mem_singleton_self _))
  obtain ⟨l', z, e⟩ := exists_snoc last h1
  · have hz : z ≠ '/' := by
      intro ez
      apply h2
      rw [e, ez]
      exact List.mem_append_right _ (List.mem_singleton_self _)
    by_cases hinit : init = []
    · subst hinit
      exact ⟨l', z, by rw [List.nil_append]; exact e, hz, fun hh => absurd rfl hh⟩
    · refine ⟨join ['/'] init ++ ['/'] ++ l', z, ?_, hz, fun _ => ?_⟩
      · rw [join_snoc _ _ _ hinit, e]
        simp only [List.append_assoc]
      · rw [join_snoc _ _ _ hinit]
        exact List.mem_append_left _ (List.mem_append_right _ (List.mem_singleton_self _))

theorem canonicalize_join (segs : List Str) (h : ∀ seg ∈ segs, NormalSegment seg) :
    canonicalize (join ['/'] segs) = join ['/'] segs := by
  by_cases hnil : segs = []
  · subst hnil
    decide
  · obtain ⟨init, last, e⟩ := exists_snoc segs hnil
    subst e
    obtain ⟨Y, z, hj, hz, hslash⟩ := join_snoc_last init last h
    have hdot : ¬ join ['/'] (init ++ [last]) = ['.'] := by
      intro hd
      by_cases hinit : init = []
      · subst hinit
        rw [List.nil_append] at hd
        exact (h last (List.mem_append_right _ (List.mem_singleton_self _))).2.2.1 hd
      · have := hslash hinit
        rw [hd] at this
        revert this
        decide
    have hsuf : List.isSuffixOf ['/'] (join ['/'] (init ++ [last])) = false := by
      cases hs : List.isSuffixOf ['/'] (join ['/'] (init ++ [last])) with
      | false => rfl
      | true =>
        exfalso
        obtain ⟨t, ht⟩ := List.isSuffixOf_iff_suffix.mp hs
        rw [hj] at ht
        have := (List.append_inj' ht rfl).2
        injection this with e1 _
        exact hz e1.symm
    unfold canonicalize trimSuffix
    rw [if_neg hdot, hsuf]
    rfl

theorem union_nil (s : StringSet) : union [] s = s := by
  unfold union
  simp

theorem normal_of_take (segs : List Str) (h : ∀ seg ∈ segs, NormalSegment seg) (k : Nat) :
    ∀ seg ∈ segs.take k, NormalSegment seg :=
  fun seg hs => h seg (List.mem_of_mem_take hs)

theorem take_succ_snoc (segs : List Str) (k : Nat) (hk : k < segs.length) :
    ∃ x, segs.take (k + 1) = segs.take k ++ [x] := by
  refine ⟨segs[k], ?_⟩
  rw [List.take_succ, List.getElem?_eq_getElem hk]
  rfl

theorem canonicalize_dir_take (segs : List Str) (h : ∀ seg ∈ segs, NormalSegment seg)
    (k : Nat) (hk : k < segs.length) :
    canonicalize (dir (join ['/'] (segs.take (k + 1)))) = join ['/'] (segs.take k) := by
  obtain ⟨x, hx⟩ := take_succ_snoc segs k hk
  have hnorm := normal_of_take segs h (k + 1)
  rw [hx] at hnorm ⊢
  by_cases hinit : segs.take k = []
  · rw [hinit, List.nil_append]
    show canonicalize (dir x) = []
    rw [dir_single x (hnorm x (by rw [hinit]; exact List.mem_singleton_self _))]
    decide
  · rw [dir_join_snoc _ _ hinit hnorm]
    exact canonicalize_join _ (normal_of_take segs h k)

theorem join_take_succ_ne_nil (segs : List Str) (h : ∀ seg ∈ segs, NormalSegment seg)
    (k : Nat) (hk : k < segs.length) : join ['/'] (segs.take (k + 1)) ≠ [] := by
  obtain ⟨x, hx⟩ := take_succ_snoc segs k hk
  have hnorm := normal_of_take segs h (k + 1)
  rw [hx] at hnorm ⊢
  obtain ⟨Y, z, hj, -, -⟩ := join_snoc_last _ _ hnorm
  rw [hj]
  exact List.append_ne_nil_of_right_ne_nil _ (List.cons_ne_nil _ _)

theorem peopleForPathLoop_leaf (people : List (Str × StringSet)) (segs : List Str)
    (h : ∀ seg ∈ segs, NormalSegment seg) (k : Nat) (hk : k ≤ segs.length)
    (fuel : Nat) (hfuel : k + 1 ≤ fuel) :
    peopleForPathLoop people true fuel (join ['/'] (segs.take k)) [] =
      some (specLeaf people (specAncestors segs k)) := by
  induction k generalizing fuel with
  | zero =>
    cases fuel with
    | zero => omega
    | succ f =>
      rw [List.take_zero]
      show peopleForPathLoop people true (f + 1) [] [] = _
      unfold peopleForPathLoop
      unfold specAncestors specLeaf
      cases hl : people.lookup ([] : Str) with
      | none => simp [baseDirConvention, specLeaf]
      | some s =>
        cases s with
        | nil => simp [baseDirConvention, specLeaf, union_nil]
        | cons a l => simp [union_nil]
  | succ k ih =>
    cases fuel with
    | zero => omega
    | succ f =>
      have hk' : k < segs.length := hk
      have hne : ¬ join ['/'] (segs.take (k + 1)) = baseDirConvention :=
        join_take_succ_ne_nil segs h k hk'
      have hrec := ih (Nat.le_of_lt hk') f (by omega)
      have hcd := canonicalize_dir_take segs h k hk'
      unfold peopleForPathLoop
      unfold specAncestors specLeaf
      cases hl : people.lookup (join ['/'] (segs.take (k + 1))) with
      | none =>
        dsimp only
        rw [if_neg hne, hcd, hrec]
      | some s =>
        cases s with
        | nil =>
          simp only [union_nil, List.length_nil, gt_iff_lt, Nat.lt_irrefl, decide_False,
            Bool.and_false, Bool.false_eq_true, if_false, if_true]
          rw [if_neg hne, hcd, hrec]
        | cons a l => simp [union_nil]

/-- C17: for a path made of segments that name files or directories, joined by
`/`, `LeafApprovers` ends within as many rounds as the path has segments plus
one, and returns the approver set stored under the deepest key, among the path
and its ancestor directories up to the root `""`, whose set is not empty, and
the empty set when there is none; whatever `enableMdYaml` is. -/
theorem leafApprovers_deepest (o : RepoInfo) (segs : List Str)
    (h : ∀ seg ∈ segs, NormalSegment seg) (fuel : Nat) (hfuel : segs.length + 1 ≤ fuel) :
    o.LeafApprovers fuel (join ['/'] segs) =
      some (specLeaf o.approvers (specAncestors segs segs.length)) := by
  have hloop := peopleForPathLoop_leaf o.approvers segs h segs.length (Nat.le_refl _)
    fuel hfuel
  rw [List.take_length] at hloop
  unfold RepoInfo.LeafApprovers peopleForPath
  cases o.enableMdYaml with
  | true => exact hloop
  | false =>
    simp only [Bool.not_false, if_true]
    rw [canonicalize_join segs h]
    exact hloop

/-- Witness of C17: with `pkg` -> {user1} and `pkg/util` -> {user2}, the leaf
approvers of `pkg/util/sets/file.go` are {user2}. -/
theorem leafApprovers_deepest_witness :
    RepoInfo.LeafApprovers
      ⟨false, false,
        [("pkg".toList, ["user1".toList]), ("pkg/util".toList, ["user2".toList])], []⟩
      5 (join ['/'] ["pkg".toList, "util".toList, "sets".toList, "file.go".toList]) =
    some ["user2".toList] :=
  (leafApprovers_deepest
    ⟨false, false,
      [("pkg".toList, ["user1".toList]), ("pkg/util".toList, ["user2".toList])], []⟩
    ["pkg".toList, "util".toList, "sets".toList, "file.go".toList]
    (by decide) 5 (by decide)).trans (by decide)

/-- C18, the code at the failing input: with `enableMdYaml` false the lookup
for `pkg/util` starts at `pkg/util` itself, not at its parent `pkg`: the set
stored under the path is returned, where a lookup from the parent directory
would return the set of `pkg`. -/
theorem peopleForPath_keeps_leaf :
    peopleForPath 3 "pkg/util".toList
      [("pkg".toList, ["user1".toList]), ("pkg/util".toList, ["user2".toList])]
      true false = some ["user2".toList] ∧
    peopleForPath 3 "pkg/util".toList
      [("pkg".toList, ["user1".toList]), ("pkg/util".toList, ["user2".toList])]
      false false = some ["user2".toList, "user1".toList] ∧
    canonicalize (dir "pkg/util".toList) = "pkg".toList ∧
    peopleForPathLoop
      [("pkg".toList, ["user1".toList]), ("pkg/util".toList, ["user2".toList])]
      true 3 (canonicalize (dir "pkg/util".toList)) [] = some ["user1".toList] := by
  decide

end Features
